import Mathlib

/-!
Shallow embedding of the confusion-matrix generator
(`src/scm/matrix.py` and `src/scm/generate.py`).

Python values that can live in a matrix cell (header strings, integer
counts, float tallies/percentages) are modelled by the inductive `Cell`;
Python floats are modelled as exact rationals.  Python code that can raise
(`__init__`, the tally pass with its dict lookups, per-row normalization
with its division by zero) is modelled in `Except String`.
-/

namespace SCM

/-- A Python value stored in a cell of the matrix: a string (headers), an
int (initial zeros and unweighted counts) or a float (weighted tallies and
percentages), the float modelled as an exact rational. -/
inductive Cell where
  | str (s : String)
  | int (n : Int)
  | float (q : Rat)
deriving DecidableEq

/-- The numeric value of a cell (0 for header strings, which never take
part in arithmetic). -/
def Cell.val : Cell → Rat
  | .str _ => 0
  | .int n => (n : Rat)
  | .float q => q

/-- Whether the cell holds a Python float (`isinstance(c, float)`). -/
def Cell.isFloat : Cell → Bool
  | .float _ => true
  | _ => false

/-- Whether the cell holds a number (int or float). -/
def Cell.isNum : Cell → Bool
  | .str _ => false
  | _ => true

/-- Python `+` as used by the tally update `result[r][c] += weight`
(`matrix.py` line 281): int/int stays int, any float makes a float,
str/str concatenates.  A number-string mix raises `TypeError` in Python;
the tally only ever adds numbers to numbers, so that case is modelled by
an arbitrary total default (first argument). -/
def Cell.add : Cell → Cell → Cell
  | .int a, .int b => .int (a + b)
  | .int a, .float b => .float ((a : Rat) + b)
  | .float a, .int b => .float (a + (b : Rat))
  | .float a, .float b => .float (a + b)
  | .str a, .str b => .str (a ++ b)
  | a, _ => a

/-- The enum `MatrixType` (`matrix.py` lines 44-53). -/
inductive MatrixType where
  | counts
  | percentages
  | percentages_per_row
deriving DecidableEq

/-- `MatrixResult.__init__` state (`matrix.py` lines 74-85): the grid, the
decimal cap and the plaintext separator. -/
structure MatrixResult where
  data : List (List Cell)
  max_decimals : Int
  separator : String
deriving DecidableEq

/-- `ConfusionMatrix` state after `__init__` (`matrix.py` lines 225-244). -/
structure ConfusionMatrix where
  actual : List String
  predicted : List String
  weight : Option (List Rat)
  labels : List String
  actualPre : String
  predictedPre : String
  corner : String
deriving DecidableEq

/-- Label list derivation when no explicit list is given (`matrix.py`
lines 240-244): the set union of the actual and predicted values
(`set()`/`update`, modelled as `dedup` of the concatenation), sorted
ascending by string order (`list.sort()`). -/
def derivedLabels (actual predicted : List String) : List String :=
  List.insertionSort (· ≤ ·) ((actual ++ predicted).dedup)

/-- The record built by the non-raising tail of `__init__` (`matrix.py`
lines 227-244); the `[:]` slice copies are identities on immutable Lean
lists (aliasing is modelled separately by the store-passing `initH`). -/
def mkCM (actual predicted : List String) (weight : Option (List Rat))
    (labelsOpt : Option (List String)) (actualPre predictedPre corner : String) :
    ConfusionMatrix :=
  { actual := actual
    predicted := predicted
    weight := weight
    labels :=
      match labelsOpt with
      | some ls => ls
      | none => derivedLabels actual predicted
    actualPre := actualPre
    predictedPre := predictedPre
    corner := corner }

/-- `ConfusionMatrix.__init__` (`matrix.py` lines 205-244): raises when
the lengths of actual and predicted differ, or when a weight list is given
whose length differs from predicted; otherwise stores the data. -/
def ConfusionMatrix.init (actual predicted : List String)
    (weight : Option (List Rat)) (labelsOpt : Option (List String))
    (actualPre predictedPre corner : String) : Except String ConfusionMatrix :=
  if actual.length ≠ predicted.length then
    .error "Actual and predicted labels differ in length"
  else
    match weight with
    | some w =>
      if w.length ≠ predicted.length then
        .error "Weights and predicted labels differ in length"
      else
        .ok (mkCM actual predicted (some w) labelsOpt actualPre predictedPre corner)
    | none => .ok (mkCM actual predicted none labelsOpt actualPre predictedPre corner)

/-- The dict `indices` built in `generate` (`matrix.py` lines 259-261):
`indices[l] = i + 1` for `i, l in enumerate(labels)`; on duplicate labels
the later assignment wins, as in a Python dict. -/
def positionFrom (i : Nat) : List String → String → Option Nat
  | [], _ => none
  | l :: ls, x =>
    match positionFrom (i + 1) ls x with
    | some k => some k
    | none => if x = l then some (i + 1) else none

/-- Position lookup `indices[x]`: the 1-based row/column of a label. -/
def position (labels : List String) (x : String) : Option Nat :=
  positionFrom 0 labels x

/-- Reading `g[r][c]`; out-of-range reads return defaults (never exercised
by the code, which only indexes in range). -/
def getCell (g : List (List Cell)) (r c : Nat) : Cell :=
  (g.getD r []).getD c (Cell.int 0)

/-- Writing `g[r][c] = v` (in-place in Python, functional update here). -/
def setCell (g : List (List Cell)) (r c : Nat) (v : Cell) : List (List Cell) :=
  g.set r ((g.getD r []).set c v)

/-- The grid right after the header and zero-filled data rows are built
(`matrix.py` lines 263-274). -/
def initGrid (cm : ConfusionMatrix) : List (List Cell) :=
  (Cell.str cm.corner :: cm.labels.map (fun l => Cell.str (cm.predictedPre ++ l))) ::
    cm.labels.map (fun l =>
      Cell.str (cm.actualPre ++ l) :: List.replicate cm.labels.length (Cell.int 0))

/-- The per-observation weights: `1` (an int) when no weight list was
given, otherwise the stored floats (`matrix.py` line 280). -/
def wcells (cm : ConfusionMatrix) : List Cell :=
  match cm.weight with
  | none => List.replicate cm.actual.length (Cell.int 1)
  | some ws => ws.map Cell.float

/-- The observation sequence walked by the tally loop: the loop runs `i`
over `range(len(actual))` reading `actual[i]`, `predicted[i]` and the
weight; with the equal lengths `__init__` enforces this is exactly the zip
of the paired label lists with the weight cells. -/
def obsList (cm : ConfusionMatrix) : List ((String × String) × Cell) :=
  (cm.actual.zip cm.predicted).zip (wcells cm)

/-- One tally update `result[r][c] += w` (`matrix.py` line 281). -/
def tallyStep (g : List (List Cell)) (r c : Nat) (w : Cell) : List (List Cell) :=
  setCell g r c ((getCell g r c).add w)

/-- The tally loop (`matrix.py` lines 277-281).  Each step looks up
`indices[actual[i]]` then `indices[predicted[i]]`; a missing label raises
`KeyError` at that point (actual first, as in the source order). -/
def tallyLoop (pos : String → Option Nat) :
    List ((String × String) × Cell) → List (List Cell) →
    Except String (List (List Cell))
  | [], g => .ok g
  | ((a, p), w) :: rest, g =>
    match pos a with
    | none => .error ("KeyError: " ++ a)
    | some r =>
      match pos p with
      | none => .error ("KeyError: " ++ p)
      | some c => tallyLoop pos rest (tallyStep g r c w)

/-- The grand total of the interior cells, as summed by the
`PERCENTAGES` branch (`matrix.py` lines 285-288). -/
def interiorSum (L : Nat) (g : List (List Cell)) : Rat :=
  ∑ y ∈ Finset.range L, ∑ x ∈ Finset.range L, (getCell g (y + 1) (x + 1)).val

/-- One row's interior total, as summed by the `PERCENTAGES_PER_ROW`
branch (`matrix.py` lines 295-297). -/
def rowSum (L : Nat) (g : List (List Cell)) (y : Nat) : Rat :=
  ∑ x ∈ Finset.range L, (getCell g (y + 1) (x + 1)).val

/-- In-place division of one data row by `s`:
`for x in range(L): result[y+1][x+1] /= s`.  Python true division always
yields a float. -/
def divRow (L : Nat) (y : Nat) (s : Rat) (g : List (List Cell)) : List (List Cell) :=
  (List.range L).foldl
    (fun g x => setCell g (y + 1) (x + 1) (Cell.float ((getCell g (y + 1) (x + 1)).val / s))) g

/-- The `PERCENTAGES` normalization loops (`matrix.py` lines 290-292):
every interior cell divided by the grand total. -/
def divideInterior (L : Nat) (s : Rat) (g : List (List Cell)) : List (List Cell) :=
  (List.range L).foldl (fun g y => divRow L y s g) g

/-- The `PERCENTAGES_PER_ROW` loop over rows (`matrix.py` lines 294-299):
row total, then in-place division of the row.  A zero row total makes the
first division raise `ZeroDivisionError`. -/
def perRowLoop (L : Nat) : List Nat → List (List Cell) →
    Except String (List (List Cell))
  | [], g => .ok g
  | y :: ys, g =>
    let s := rowSum L g y
    if s = 0 then .error "ZeroDivisionError: division by zero"
    else perRowLoop L ys (divRow L y s g)

/-- `ConfusionMatrix.generate` (`matrix.py` lines 246-301): build the
header and zero grid, tally, post-process per the matrix type, wrap in a
`MatrixResult` (whose separator is the `" "` set by
`MatrixResult.__init__`). -/
def ConfusionMatrix.generate (cm : ConfusionMatrix) (mt : MatrixType) (md : Int) :
    Except String MatrixResult :=
  let L := cm.labels.length
  match tallyLoop (position cm.labels) (obsList cm) (initGrid cm) with
  | .error e => .error e
  | .ok g1 =>
    match mt with
    | .counts => .ok { data := g1, max_decimals := md, separator := " " }
    | .percentages =>
      let s := interiorSum L g1
      if s > 0 then
        .ok { data := divideInterior L s g1, max_decimals := md, separator := " " }
      else
        .ok { data := g1, max_decimals := md, separator := " " }
    | .percentages_per_row =>
      match perRowLoop L (List.range L) g1 with
      | .error e => .error e
      | .ok g2 => .ok { data := g2, max_decimals := md, separator := " " }

/-- Left-pad a digit string with zeros to `d` characters, for the
fractional part of fixed-point formatting. -/
def padZeros (d : Nat) (s : String) : String :=
  String.mk (List.replicate (d - s.length) '0') ++ s

/-- Model of the C-style fixed-point formatting `"%.df" % q` applied by
`_cell_to_string` (`matrix.py` lines 97-98): the exact value is rounded to
`d` fractional digits, ties to even, and printed with exactly `d` digits
after the point (no point at all when `d = 0`); a negative value keeps its
sign even when all printed digits are zero.  Computed on the numerator and
denominator of the rational. -/
def fixedFormat (d : Nat) (q : Rat) : String :=
  let den : Int := (q.den : Int)
  let scaledNum : Int := q.num * (10 : Int) ^ d
  let f : Int := scaledNum.fdiv den
  let m : Int := scaledNum.fmod den
  let scaled : Int :=
    if 2 * m < den then f
    else if 2 * m > den then f + 1
    else if f % 2 = 0 then f else f + 1
  let sign : String := if q.num < 0 then "-" else ""
  let a : Nat := scaled.natAbs
  if d = 0 then sign ++ toString a
  else sign ++ toString (a / 10 ^ d) ++ "." ++ padZeros d (toString (a % 10 ^ d))

/-- Fractional digits of `r / den` (`0 ≤ r < den`), most significant
first, stopping at a zero remainder or when the fuel runs out. -/
def fracDigits : Nat → Int → Int → List Nat
  | 0, _, _ => []
  | fuel + 1, r, den =>
    if r = 0 then []
    else ((r * 10).fdiv den).toNat :: fracDigits fuel ((r * 10).fmod den) den

/-- Model of Python `str()` on a float value: an integral value prints
with a trailing `.0`; otherwise sign, integer part and the fractional
digits of the exact value (Python prints the shortest repr of the binary
double, which agrees with this on the decimal-exact values the program
produces; 17 significant digits is the repr cap). -/
def pyFloatStr (q : Rat) : String :=
  if q.den = 1 then toString q.num ++ ".0"
  else
    let sign : String := if q.num < 0 then "-" else ""
    let a : Nat := q.num.natAbs
    let ds := fracDigits 17 ((a : Int).fmod (q.den : Int)) (q.den : Int)
    sign ++ toString (a / q.den) ++ "." ++ String.mk (ds.map Nat.digitChar)

/-- Python `str()` on a cell value: strings as themselves, ints in
decimal, floats per `pyFloatStr`. -/
def pyStr : Cell → String
  | .str s => s
  | .int n => toString n
  | .float q => pyFloatStr q

/-- `MatrixResult._cell_to_string` (`matrix.py` lines 87-101): when
`max_decimals > -1` and the cell is a float, fixed-format it with
`max_decimals` digits; otherwise plain `str()`. -/
def cell_to_string (md : Int) (c : Cell) : String :=
  if md > -1 ∧ c.isFloat then fixedFormat md.toNat c.val else pyStr c

/-- `load_csv` (`matrix.py` lines 6-41), with the file already split into
rows of fields (file opening and CSV splitting are runtime glue).  The
first row is skipped when `header` is set; each kept row contributes
`row[col - 1]` to the respective column list.  Note that the weight
column, when configured, is appended verbatim: the weight list returned
is a list of unparsed strings. -/
def load_csv (rows : List (List String)) (col_act col_pred : Nat)
    (col_weight : Option Nat) (header : Bool) :
    List String × List String × Option (List String) :=
  let dataRows := if header then rows.drop 1 else rows
  (dataRows.map (fun row => row.getD (col_act - 1) ""),
   dataRows.map (fun row => row.getD (col_pred - 1) ""),
   match col_weight with
   | none => none
   | some cw => some (dataRows.map (fun row => row.getD (cw - 1) "")))

/-- A tiny store model for the aliasing behaviour of `__init__`: a heap of
string lists and rational lists addressed by naturals, with a bump
allocator.  Caller-visible Python lists live at addresses below `next`. -/
structure PyState where
  strs : Nat → List String
  rats : Nat → List Rat
  next : Nat

/-- Allocate a fresh cell holding the string list `v` (the result of a
`[:]` slice copy). -/
def allocStrs (σ : PyState) (v : List String) : Nat × PyState :=
  (σ.next, { strs := fun r => if r = σ.next then v else σ.strs r, rats := σ.rats, next := σ.next + 1 })

/-- Allocate a fresh cell holding the rational list `v`. -/
def allocRats (σ : PyState) (v : List Rat) : Nat × PyState :=
  (σ.next, { strs := σ.strs, rats := fun r => if r = σ.next then v else σ.rats r, next := σ.next + 1 })

/-- In-place mutation of the string list at address `r`. -/
def updateStrs (σ : PyState) (r : Nat) (v : List String) : PyState :=
  { strs := fun x => if x = r then v else σ.strs x, rats := σ.rats, next := σ.next }

/-- In-place mutation of the rational list at address `r`. -/
def updateRats (σ : PyState) (r : Nat) (v : List Rat) : PyState :=
  { strs := σ.strs, rats := fun x => if x = r then v else σ.rats x, next := σ.next }

/-- The addresses a constructed `ConfusionMatrix` holds for its `actual`,
`predicted`, `weight` and `labels` attributes. -/
structure CMRefs where
  actualRef : Nat
  predictedRef : Nat
  weightRef : Option Nat
  labelsRef : Nat

/-- `ConfusionMatrix.__init__` in the store model (`matrix.py` lines
225-244): the length checks read the caller's lists; each stored
attribute is a `[:]` slice (for `labels`, `labels[:]` when supplied, or a
fresh list built from a set otherwise), so every attribute is written to a
freshly allocated address holding a copy of the contents read at
construction time.  The weight case distinction is lifted outermost here;
within each branch the checks run in the source order (actual/predicted
length first, then the weight length), so the raised error is the same. -/
def initH (σ : PyState) (aRef pRef : Nat) (wRef : Option Nat)
    (lRef : Option Nat) : Except String (CMRefs × PyState) :=
  match wRef with
  | some wr =>
    if (σ.strs aRef).length ≠ (σ.strs pRef).length then
      .error "Actual and predicted labels differ in length"
    else if (σ.rats wr).length ≠ (σ.strs pRef).length then
      .error "Weights and predicted labels differ in length"
    else
      let σ1 := (allocStrs σ (σ.strs aRef)).2
      let σ2 := (allocStrs σ1 (σ1.strs pRef)).2
      let σ3 := (allocRats σ2 (σ2.rats wr)).2
      let σ4 := (allocStrs σ3
        (match lRef with
         | some lr => σ3.strs lr
         | none => derivedLabels (σ3.strs aRef) (σ3.strs pRef))).2
      .ok ({ actualRef := σ.next, predictedRef := σ1.next,
             weightRef := some σ2.next, labelsRef := σ3.next }, σ4)
  | none =>
    if (σ.strs aRef).length ≠ (σ.strs pRef).length then
      .error "Actual and predicted labels differ in length"
    else
      let σ1 := (allocStrs σ (σ.strs aRef)).2
      let σ2 := (allocStrs σ1 (σ1.strs pRef)).2
      let σ3 := (allocStrs σ2
        (match lRef with
         | some lr => σ2.strs lr
         | none => derivedLabels (σ2.strs aRef) (σ2.strs pRef))).2
      .ok ({ actualRef := σ.next, predictedRef := σ1.next,
             weightRef := none, labelsRef := σ2.next }, σ3)

/-- The builder's view of its own attributes in the store model: the
`ConfusionMatrix` value obtained by dereferencing the four stored
addresses (what any later `generate` call reads). -/
def derefCM (σ : PyState) (r : CMRefs) (aP pP cor : String) : ConfusionMatrix :=
  { actual := σ.strs r.actualRef
    predicted := σ.strs r.predictedRef
    weight := r.weightRef.map σ.rats
    labels := σ.strs r.labelsRef
    actualPre := aP
    predictedPre := pP
    corner := cor }

/-- The `generate` method viewed as a state transformer on the receiver:
the body of `generate` only reads `self` (no attribute of `self` is ever
assigned), so the post-state is the unchanged receiver. -/
def generateS (cm : ConfusionMatrix) (mt : MatrixType) (md : Int) :
    Except String MatrixResult × ConfusionMatrix :=
  (cm.generate mt md, cm)

/-- The per-observation contribution of an observation list to cell
`(r, c)`: the sum of the weights of the observations whose actual label
sits at row `r` and predicted label at column `c`.  This is the quantity
the tally loop accumulates. -/
def contrib (pos : String → Option Nat) (r c : Nat)
    (obs : List ((String × String) × Cell)) : Rat :=
  (obs.map (fun o => if pos o.1.1 = some r ∧ pos o.1.2 = some c then o.2.val else 0)).sum

/-- Well-formedness of a grid for `L` labels: `L + 1` rows of `L + 1`
cells each. -/
def WF (L : Nat) (g : List (List Cell)) : Prop :=
  g.length = L + 1 ∧ ∀ row ∈ g, row.length = L + 1

/-- All interior cells hold numbers. -/
def interiorNum (L : Nat) (g : List (List Cell)) : Prop :=
  ∀ r c, 1 ≤ r → r ≤ L → 1 ≤ c → c ≤ L → (getCell g r c).isNum = true

/-! ### Generic list access lemmas -/

theorem getD_set_self {α : Type} (l : List α) (i : Nat) (v d : α) (h : i < l.length) :
    (l.set i v).getD i d = v := by
  simp [List.getD_eq_getElem?_getD, List.getElem?_set_self h]

theorem getD_set_ne {α : Type} (l : List α) (i j : Nat) (v d : α) (h : i ≠ j) :
    (l.set i v).getD j d = l.getD j d := by
  simp [List.getD_eq_getElem?_getD, List.getElem?_set_ne h]

theorem getD_eq_getElem {α : Type} (l : List α) (i : Nat) (d : α) (h : i < l.length) :
    l.getD i d = l[i] := by
  simp [List.getD_eq_getElem?_getD, List.getElem?_eq_getElem h]

theorem getD_eq_default {α : Type} (l : List α) (i : Nat) (d : α) (h : l.length ≤ i) :
    l.getD i d = d := by
  simp [List.getD_eq_getElem?_getD, List.getElem?_eq_none h]

/-! ### Grid access lemmas -/

theorem length_setCell (g : List (List Cell)) (r c : Nat) (v : Cell) :
    (setCell g r c v).length = g.length := by
  simp [setCell]

theorem WF.rowLen {L : Nat} {g : List (List Cell)} (h : WF L g) {r : Nat}
    (hr : r < L + 1) : (g.getD r []).length = L + 1 := by
  have hrl : r < g.length := by rw [h.1]; exact hr
  rw [getD_eq_getElem _ _ _ hrl]
  exact h.2 _ (List.getElem_mem hrl)

theorem WF.setCell {L : Nat} {g : List (List Cell)} (h : WF L g) {r : Nat}
    (hr : r < L + 1) (c : Nat) (v : Cell) : WF L (SCM.setCell g r c v) := by
  refine ⟨by simp [SCM.setCell, h.1], ?_⟩
  intro row hrow
  rcases List.mem_or_eq_of_mem_set hrow with hmem | heq
  · exact h.2 _ hmem
  · rw [heq, List.length_set]
    exact h.rowLen hr

theorem getCell_setCell_self {L : Nat} {g : List (List Cell)} (h : WF L g)
    {r c : Nat} (hr : r < L + 1) (hc : c < L + 1) (v : Cell) :
    getCell (setCell g r c v) r c = v := by
  have hrl : r < g.length := by rw [h.1]; exact hr
  have hcl : c < (g.getD r []).length := by rw [h.rowLen hr]; exact hc
  unfold getCell setCell
  rw [getD_set_self _ _ _ _ hrl, getD_set_self _ _ _ _ hcl]

theorem getCell_setCell_ne {g : List (List Cell)} {r c r' c' : Nat}
    (h : r ≠ r' ∨ c ≠ c') (v : Cell) :
    getCell (setCell g r c v) r' c' = getCell g r' c' := by
  unfold getCell setCell
  rcases h with h | h
  · rw [getD_set_ne _ _ _ _ _ h]
  · rcases eq_or_ne r r' with rfl | hrr
    · by_cases hrl : r < g.length
      · rw [getD_set_self _ _ _ _ hrl, getD_set_ne _ _ _ _ _ h]
      · have hle : g.length ≤ r := Nat.le_of_not_lt hrl
        rw [getD_eq_default (g.set r ((g.getD r []).set c v)) r [] (by simpa using hle),
          getD_eq_default g r [] hle]
    · rw [getD_set_ne _ _ _ _ _ hrr]

/-! ### Position (label index) lemmas -/

theorem positionFrom_bounds {ls : List String} {x : String} :
    ∀ {i k : Nat}, positionFrom i ls x = some k → i < k ∧ k ≤ i + ls.length := by
  induction ls with
  | nil => intro i k h; simp [positionFrom] at h
  | cons l ls ih =>
    intro i k h
    unfold positionFrom at h
    cases hrec : positionFrom (i + 1) ls x with
    | some k2 =>
      rw [hrec] at h
      cases h
      have := ih hrec
      simp only [List.length_cons]
      omega
    | none =>
      rw [hrec] at h
      by_cases hx : x = l
      · simp only [hx, if_pos rfl] at h
        cases h
        simp only [List.length_cons]
        omega
      · simp [hx] at h

theorem position_bounds {ls : List String} {x : String} {k : Nat}
    (h : position ls x = some k) : 1 ≤ k ∧ k ≤ ls.length := by
  have := @positionFrom_bounds ls x 0 k h
  omega

theorem positionFrom_isSome_iff {ls : List String} {x : String} :
    ∀ {i : Nat}, (positionFrom i ls x).isSome = true ↔ x ∈ ls := by
  induction ls with
  | nil => intro i; simp [positionFrom]
  | cons l ls ih =>
    intro i
    unfold positionFrom
    cases hrec : positionFrom (i + 1) ls x with
    | some k =>
      have : x ∈ ls := ih.mp (by rw [hrec]; rfl)
      simp [this]
    | none =>
      have hnx : ¬ x ∈ ls := fun hm => by
        have := (@ih (i + 1)).mpr hm
        rw [hrec] at this
        simp at this
      by_cases hx : x = l <;> simp [hx, hnx]

theorem position_isSome_iff {ls : List String} {x : String} :
    (position ls x).isSome = true ↔ x ∈ ls :=
  positionFrom_isSome_iff

/-! ### Cell arithmetic lemmas -/

theorem Cell.val_add {a b : Cell} (ha : a.isNum = true) (hb : b.isNum = true) :
    (a.add b).val = a.val + b.val := by
  cases a <;> cases b <;> simp_all [Cell.isNum, Cell.add, Cell.val]

theorem Cell.isNum_add {a b : Cell} (ha : a.isNum = true) (hb : b.isNum = true) :
    (a.add b).isNum = true := by
  cases a <;> cases b <;> simp_all [Cell.isNum, Cell.add]

/-! ### The initial grid -/

theorem WF_initGrid (cm : ConfusionMatrix) : WF cm.labels.length (initGrid cm) := by
  constructor
  · simp [initGrid]
  · intro row hrow
    simp only [initGrid, List.mem_cons, List.mem_map] at hrow
    rcases hrow with rfl | ⟨l, _, rfl⟩
    · simp
    · simp

theorem getCell_initGrid_interior (cm : ConfusionMatrix) {r c : Nat}
    (hr1 : 1 ≤ r) (hrL : r ≤ cm.labels.length) (hc1 : 1 ≤ c)
    (hcL : c ≤ cm.labels.length) : getCell (initGrid cm) r c = Cell.int 0 := by
  obtain ⟨y, rfl⟩ : ∃ y, r = y + 1 := ⟨r - 1, by omega⟩
  obtain ⟨x, rfl⟩ : ∃ x, c = x + 1 := ⟨c - 1, by omega⟩
  have hy : y < cm.labels.length := by omega
  have hx : x < cm.labels.length := by omega
  unfold getCell initGrid
  have hrow : (cm.labels.map (fun l =>
      Cell.str (cm.actualPre ++ l) :: List.replicate cm.labels.length (Cell.int 0))).getD y [] =
      Cell.str (cm.actualPre ++ cm.labels[y]) ::
        List.replicate cm.labels.length (Cell.int 0) := by
    rw [getD_eq_getElem _ _ _ (by simpa using hy)]
    simp
  have hrep : (List.replicate cm.labels.length (Cell.int 0)).getD x (Cell.int 0) =
      Cell.int 0 := by
    rw [getD_eq_getElem _ _ _ (by simpa using hx)]
    simp
  rw [List.getD_cons_succ, hrow, List.getD_cons_succ, hrep]

theorem interiorNum_initGrid (cm : ConfusionMatrix) :
    interiorNum cm.labels.length (initGrid cm) := by
  intro r c h1 h2 h3 h4
  rw [getCell_initGrid_interior cm h1 h2 h3 h4]
  rfl

theorem interiorSum_initGrid (cm : ConfusionMatrix) :
    interiorSum cm.labels.length (initGrid cm) = 0 := by
  unfold interiorSum
  refine Finset.sum_eq_zero fun y hy => Finset.sum_eq_zero fun x hx => ?_
  have hy2 := Finset.mem_range.mp hy
  have hx2 := Finset.mem_range.mp hx
  rw [getCell_initGrid_interior cm (by omega) (by omega) (by omega) (by omega)]
  rfl

/-! ### The tally step -/

theorem getCell_tallyStep_self {L : Nat} {g : List (List Cell)} (h : WF L g)
    {r c : Nat} (_hr1 : 1 ≤ r) (hrL : r ≤ L) (_hc1 : 1 ≤ c) (hcL : c ≤ L) (w : Cell) :
    getCell (tallyStep g r c w) r c = (getCell g r c).add w :=
  getCell_setCell_self h (by omega) (by omega) _

theorem getCell_tallyStep_ne {g : List (List Cell)} {r c r' c' : Nat}
    (h : r ≠ r' ∨ c ≠ c') (w : Cell) :
    getCell (tallyStep g r c w) r' c' = getCell g r' c' :=
  getCell_setCell_ne h _

theorem WF_tallyStep {L : Nat} {g : List (List Cell)} (h : WF L g) {r : Nat}
    (hr : r < L + 1) (c : Nat) (w : Cell) : WF L (tallyStep g r c w) :=
  h.setCell hr _ _

theorem interiorSum_tallyStep {L : Nat} {g : List (List Cell)} (hWF : WF L g)
    (hNum : interiorNum L g) {r c : Nat} (hr1 : 1 ≤ r) (hrL : r ≤ L)
    (hc1 : 1 ≤ c) (hcL : c ≤ L) {w : Cell} (hw : w.isNum = true) :
    interiorSum L (tallyStep g r c w) = interiorSum L g + w.val := by
  have hstep : ∀ y x, y < L → x < L →
      (getCell (tallyStep g r c w) (y + 1) (x + 1)).val =
        (getCell g (y + 1) (x + 1)).val +
          (if y + 1 = r ∧ x + 1 = c then w.val else 0) := by
    intro y x hy hx
    by_cases hyx : y + 1 = r ∧ x + 1 = c
    · obtain ⟨h5, h6⟩ := hyx
      subst h5; subst h6
      rw [getCell_tallyStep_self hWF hr1 hrL hc1 hcL,
        Cell.val_add (hNum _ _ hr1 hrL hc1 hcL) hw]
      simp
    · rw [getCell_tallyStep_ne (by omega) w]
      simp [hyx]
  have houter : (∑ y ∈ Finset.range L, ∑ x ∈ Finset.range L,
      if y + 1 = r ∧ x + 1 = c then w.val else 0) = w.val := by
    rw [Finset.sum_eq_single_of_mem (r - 1) (Finset.mem_range.mpr (by omega))]
    · rw [Finset.sum_eq_single_of_mem (c - 1) (Finset.mem_range.mpr (by omega))]
      · have h1 : r - 1 + 1 = r := by omega
        have h2 : c - 1 + 1 = c := by omega
        simp [h1, h2]
      · intro x _ hxne
        have hno : ¬(r - 1 + 1 = r ∧ x + 1 = c) := by omega
        simp [hno]
    · intro y _ hyne
      refine Finset.sum_eq_zero fun x _ => ?_
      have hno : ¬(y + 1 = r ∧ x + 1 = c) := by omega
      simp [hno]
  unfold interiorSum
  rw [Finset.sum_congr rfl fun y hy => Finset.sum_congr rfl fun x hx =>
    hstep y x (Finset.mem_range.mp hy) (Finset.mem_range.mp hx)]
  simp only [Finset.sum_add_distrib]
  rw [houter]

/-! ### The tally loop -/

theorem tallyLoop_master {L : Nat} (pos : String → Option Nat) :
    ∀ (obs : List ((String × String) × Cell)),
    (∀ o ∈ obs, ∃ r c, pos o.1.1 = some r ∧ pos o.1.2 = some c ∧
        1 ≤ r ∧ r ≤ L ∧ 1 ≤ c ∧ c ≤ L) →
    (∀ o ∈ obs, o.2.isNum = true) →
    ∀ g, WF L g → interiorNum L g →
    ∃ g', tallyLoop pos obs g = .ok g' ∧ WF L g' ∧ interiorNum L g' ∧
      (∀ r c, 1 ≤ r → r ≤ L → 1 ≤ c → c ≤ L →
        (getCell g' r c).val = (getCell g r c).val + contrib pos r c obs) ∧
      (∀ r c, r = 0 ∨ c = 0 → getCell g' r c = getCell g r c) ∧
      interiorSum L g' = interiorSum L g + (obs.map (fun o => o.2.val)).sum := by
  intro obs
  induction obs with
  | nil =>
    intro _ _ g hWF hNum
    exact ⟨g, rfl, hWF, hNum, fun r c _ _ _ _ => by simp [contrib],
      fun r c _ => rfl, by simp⟩
  | cons o rest ih =>
    intro hpos hw g hWF hNum
    obtain ⟨⟨a, p⟩, w⟩ := o
    obtain ⟨r₀, c₀, ha, hp, hr1, hrL, hc1, hcL⟩ := hpos _ (List.mem_cons_self _ _)
    have hw0 : w.isNum = true := hw _ (List.mem_cons_self _ _)
    have hWF1 : WF L (tallyStep g r₀ c₀ w) := WF_tallyStep hWF (by omega) _ _
    have hNum1 : interiorNum L (tallyStep g r₀ c₀ w) := by
      intro r c h1 h2 h3 h4
      by_cases hrc : r = r₀ ∧ c = c₀
      · obtain ⟨rfl, rfl⟩ := hrc
        rw [getCell_tallyStep_self hWF h1 h2 h3 h4]
        exact Cell.isNum_add (hNum _ _ h1 h2 h3 h4) hw0
      · rw [getCell_tallyStep_ne (by omega) w]
        exact hNum _ _ h1 h2 h3 h4
    obtain ⟨g', hrun, hWF', hNum', hcell, hhead, hsum⟩ :=
      ih (fun o ho => hpos o (List.mem_cons_of_mem _ ho))
        (fun o ho => hw o (List.mem_cons_of_mem _ ho))
        (tallyStep g r₀ c₀ w) hWF1 hNum1
    refine ⟨g', ?_, hWF', hNum', ?_, ?_, ?_⟩
    · simp only [tallyLoop, ha, hp]
      exact hrun
    · intro r c h1 h2 h3 h4
      rw [hcell r c h1 h2 h3 h4]
      have hcontrib : contrib pos r c (((a, p), w) :: rest) =
          (if pos a = some r ∧ pos p = some c then w.val else 0) +
            contrib pos r c rest := by
        simp [contrib]
      rw [hcontrib]
      by_cases hrc : r = r₀ ∧ c = c₀
      · obtain ⟨rfl, rfl⟩ := hrc
        rw [getCell_tallyStep_self hWF h1 h2 h3 h4,
          Cell.val_add (hNum _ _ h1 h2 h3 h4) hw0, if_pos ⟨ha, hp⟩]
        ring
      · rw [getCell_tallyStep_ne (by omega) w, if_neg ?_]
        · ring
        · rintro ⟨h5, h6⟩
          rw [ha] at h5
          rw [hp] at h6
          cases h5
          cases h6
          exact hrc ⟨rfl, rfl⟩
    · intro r c hrc0
      have hne : getCell (tallyStep g r₀ c₀ w) r c = getCell g r c := by
        apply getCell_tallyStep_ne _ w
        rcases hrc0 with rfl | rfl
        · left; omega
        · right; omega
      rw [hhead r c hrc0, hne]
    · rw [hsum, interiorSum_tallyStep hWF hNum hr1 hrL hc1 hcL hw0]
      simp only [List.map_cons, List.sum_cons]
      ring

/-! ### Row and interior normalization -/

theorem divRow_aux {L : Nat} {g : List (List Cell)} (hWF : WF L g) {y : Nat}
    (hy : y < L) (s : Rat) :
    ∀ n, n ≤ L →
      WF L ((List.range n).foldl (fun g x => setCell g (y + 1) (x + 1)
          (Cell.float ((getCell g (y + 1) (x + 1)).val / s))) g) ∧
      ∀ r c, getCell ((List.range n).foldl (fun g x => setCell g (y + 1) (x + 1)
          (Cell.float ((getCell g (y + 1) (x + 1)).val / s))) g) r c =
        if r = y + 1 ∧ 1 ≤ c ∧ c ≤ n then Cell.float ((getCell g r c).val / s)
        else getCell g r c := by
  intro n
  induction n with
  | zero =>
    refine fun _ => ⟨by simpa using hWF, fun r c => ?_⟩
    simp only [List.range_zero, List.foldl_nil]
    rw [if_neg (by omega)]
  | succ n ih =>
    intro hn
    obtain ⟨ihWF, ihcell⟩ := ih (by omega)
    rw [List.range_succ, List.foldl_append]
    simp only [List.foldl_cons, List.foldl_nil]
    constructor
    · exact ihWF.setCell (by omega) _ _
    · intro r c
      by_cases h1 : r = y + 1 ∧ c = n + 1
      · obtain ⟨rfl, rfl⟩ := h1
        rw [getCell_setCell_self ihWF (by omega) (by omega), ihcell,
          if_neg (by omega), if_pos ⟨rfl, by omega, by omega⟩]
      · rw [getCell_setCell_ne (by omega) _, ihcell r c]
        by_cases h2 : r = y + 1 ∧ 1 ≤ c ∧ c ≤ n
        · rw [if_pos h2, if_pos ⟨h2.1, h2.2.1, by omega⟩]
        · rw [if_neg h2, if_neg (by omega)]

theorem WF_divRow {L : Nat} {g : List (List Cell)} (hWF : WF L g) {y : Nat}
    (hy : y < L) (s : Rat) : WF L (divRow L y s g) :=
  (divRow_aux hWF hy s L le_rfl).1

theorem getCell_divRow {L : Nat} {g : List (List Cell)} (hWF : WF L g) {y : Nat}
    (hy : y < L) (s : Rat) (r c : Nat) :
    getCell (divRow L y s g) r c =
      if r = y + 1 ∧ 1 ≤ c ∧ c ≤ L then Cell.float ((getCell g r c).val / s)
      else getCell g r c :=
  (divRow_aux hWF hy s L le_rfl).2 r c

theorem rowSum_divRow_other {L : Nat} {g : List (List Cell)} (hWF : WF L g)
    {y y' : Nat} (hy : y < L) (hne : y' ≠ y) (s : Rat) :
    rowSum L (divRow L y s g) y' = rowSum L g y' := by
  refine Finset.sum_congr rfl fun x _ => ?_
  rw [getCell_divRow hWF hy s, if_neg (by omega)]

theorem rowSum_divRow_self {L : Nat} {g : List (List Cell)} (hWF : WF L g)
    {y : Nat} (hy : y < L) (s : Rat) :
    rowSum L (divRow L y s g) y = rowSum L g y / s := by
  unfold rowSum
  refine Eq.trans (Finset.sum_congr rfl fun x hx => ?_) (Finset.sum_div _ _ _).symm
  have hx2 := Finset.mem_range.mp hx
  rw [getCell_divRow hWF hy s, if_pos ⟨rfl, by omega, by omega⟩]
  rfl

theorem divideInterior_aux {L : Nat} {g : List (List Cell)} (hWF : WF L g) (s : Rat) :
    ∀ m, m ≤ L →
      WF L ((List.range m).foldl (fun g y => divRow L y s g) g) ∧
      ∀ r c, getCell ((List.range m).foldl (fun g y => divRow L y s g) g) r c =
        if 1 ≤ r ∧ r ≤ m ∧ 1 ≤ c ∧ c ≤ L then Cell.float ((getCell g r c).val / s)
        else getCell g r c := by
  intro m
  induction m with
  | zero =>
    refine fun _ => ⟨by simpa using hWF, fun r c => ?_⟩
    simp only [List.range_zero, List.foldl_nil]
    rw [if_neg (by omega)]
  | succ m ih =>
    intro hm
    obtain ⟨ihWF, ihcell⟩ := ih (by omega)
    rw [List.range_succ, List.foldl_append]
    simp only [List.foldl_cons, List.foldl_nil]
    constructor
    · exact WF_divRow ihWF (by omega) s
    · intro r c
      rw [getCell_divRow ihWF (by omega) s r c]
      by_cases h1 : r = m + 1 ∧ 1 ≤ c ∧ c ≤ L
      · rw [if_pos h1, ihcell r c, if_neg (by omega),
          if_pos ⟨by omega, by omega, h1.2.1, h1.2.2⟩]
      · rw [if_neg h1, ihcell r c]
        by_cases h2 : 1 ≤ r ∧ r ≤ m ∧ 1 ≤ c ∧ c ≤ L
        · rw [if_pos h2, if_pos ⟨h2.1, by omega, h2.2.2.1, h2.2.2.2⟩]
        · rw [if_neg h2, if_neg (by omega)]

theorem getCell_divideInterior {L : Nat} {g : List (List Cell)} (hWF : WF L g)
    (s : Rat) (r c : Nat) :
    getCell (divideInterior L s g) r c =
      if 1 ≤ r ∧ r ≤ L ∧ 1 ≤ c ∧ c ≤ L then Cell.float ((getCell g r c).val / s)
      else getCell g r c :=
  (divideInterior_aux hWF s L le_rfl).2 r c

theorem WF_divideInterior {L : Nat} {g : List (List Cell)} (hWF : WF L g) (s : Rat) :
    WF L (divideInterior L s g) :=
  (divideInterior_aux hWF s L le_rfl).1

/-! ### The per-row normalization loop -/

theorem perRowLoop_master {L : Nat} :
    ∀ (ys : List Nat) (g : List (List Cell)), WF L g → ys.Nodup → (∀ y ∈ ys, y < L) →
    ((∃ y ∈ ys, rowSum L g y = 0) →
        perRowLoop L ys g = .error "ZeroDivisionError: division by zero") ∧
    ((∀ y ∈ ys, rowSum L g y ≠ 0) →
      ∃ g', perRowLoop L ys g = .ok g' ∧ WF L g' ∧
        (∀ y ∈ ys, ∀ c, 1 ≤ c → c ≤ L →
          getCell g' (y + 1) c = Cell.float ((getCell g (y + 1) c).val / rowSum L g y)) ∧
        (∀ y ∈ ys, rowSum L g' y = 1) ∧
        (∀ r c, (∀ y ∈ ys, r ≠ y + 1) → getCell g' r c = getCell g r c)) := by
  intro ys
  induction ys with
  | nil =>
    intro g hWF _ _
    refine ⟨?_, fun _ => ⟨g, rfl, hWF, by simp, by simp, fun r c _ => rfl⟩⟩
    rintro ⟨y, hy, _⟩
    simp at hy
  | cons y ys ih =>
    intro g hWF hnd hlt
    have hyL : y < L := hlt y (List.mem_cons_self _ _)
    have hnotmem : y ∉ ys := (List.nodup_cons.mp hnd).1
    have hnd2 : ys.Nodup := (List.nodup_cons.mp hnd).2
    constructor
    · rintro ⟨z, hz, hz0⟩
      rcases List.mem_cons.mp hz with rfl | hz2
      · unfold perRowLoop
        rw [if_pos hz0]
      · by_cases h0 : rowSum L g y = 0
        · unfold perRowLoop
          rw [if_pos h0]
        · unfold perRowLoop
          rw [if_neg h0]
          have hzy : z ≠ y := fun h => hnotmem (h ▸ hz2)
          refine (ih (divRow L y (rowSum L g y) g) (WF_divRow hWF hyL _) hnd2
            (fun u hu => hlt u (List.mem_cons_of_mem _ hu))).1 ⟨z, hz2, ?_⟩
          rw [rowSum_divRow_other hWF hyL hzy]
          exact hz0
    · intro hne
      have h0 : rowSum L g y ≠ 0 := hne y (List.mem_cons_self _ _)
      unfold perRowLoop
      rw [if_neg h0]
      have hneq : ∀ u ∈ ys, u ≠ y := fun u hu h => hnotmem (h ▸ hu)
      obtain ⟨g', hrun, hWF', hcells, hones, hpres⟩ :=
        (ih (divRow L y (rowSum L g y) g) (WF_divRow hWF hyL _) hnd2
          (fun u hu => hlt u (List.mem_cons_of_mem _ hu))).2
          (fun u hu => by
            rw [rowSum_divRow_other hWF hyL (hneq u hu)]
            exact hne u (List.mem_cons_of_mem _ hu))
      refine ⟨g', hrun, hWF', ?_, ?_, ?_⟩
      · intro u hu c hc1 hcL
        rcases List.mem_cons.mp hu with rfl | hu2
        · have hy2 : ∀ z ∈ ys, (u + 1 : Nat) ≠ z + 1 := by
            intro z hz h
            have huz : u = z := by omega
            exact hnotmem (huz ▸ hz)
          rw [hpres _ _ hy2, getCell_divRow hWF hyL (rowSum L g u),
            if_pos ⟨rfl, hc1, hcL⟩]
        · have huy : u ≠ y := hneq u hu2
          rw [hcells u hu2 c hc1 hcL, rowSum_divRow_other hWF hyL huy]
          have hother : getCell (divRow L y (rowSum L g y) g) (u + 1) c =
              getCell g (u + 1) c := by
            rw [getCell_divRow hWF hyL (rowSum L g y), if_neg (by omega)]
          rw [hother]
      · intro u hu
        rcases List.mem_cons.mp hu with rfl | hu2
        · have hy2 : ∀ z ∈ ys, (u + 1 : Nat) ≠ z + 1 := by
            intro z hz h
            have huz : u = z := by omega
            exact hnotmem (huz ▸ hz)
          have hsame : rowSum L g' u = rowSum L (divRow L u (rowSum L g u) g) u :=
            Finset.sum_congr rfl fun x _ => by rw [hpres _ _ hy2]
          rw [hsame, rowSum_divRow_self hWF hyL]
          exact div_self h0
        · exact hones u hu2
      · intro r c hr
        rw [hpres r c (fun z hz => hr z (List.mem_cons_of_mem _ hz)),
          getCell_divRow hWF hyL]
        rw [if_neg ?_]
        rintro ⟨h1, _⟩
        exact hr y (List.mem_cons_self _ _) h1

/-! ### Observations, weights, labels -/

theorem wcells_none {cm : ConfusionMatrix} (h : cm.weight = none) :
    wcells cm = List.replicate cm.actual.length (Cell.int 1) := by
  unfold wcells
  rw [h]

theorem wcells_some {cm : ConfusionMatrix} {ws : List Rat} (h : cm.weight = some ws) :
    wcells cm = ws.map Cell.float := by
  unfold wcells
  rw [h]

theorem wcells_isNum (cm : ConfusionMatrix) : ∀ w ∈ wcells cm, w.isNum = true := by
  intro w hw
  cases hwt : cm.weight with
  | none =>
    rw [wcells_none hwt] at hw
    simp only [List.mem_replicate] at hw
    rw [hw.2]
    rfl
  | some ws =>
    rw [wcells_some hwt] at hw
    simp only [List.mem_map] at hw
    obtain ⟨q, _, rfl⟩ := hw
    rfl

theorem obsList_mem {cm : ConfusionMatrix} {o : (String × String) × Cell}
    (h : o ∈ obsList cm) :
    o.1.1 ∈ cm.actual ∧ o.1.2 ∈ cm.predicted ∧ o.2.isNum = true := by
  unfold obsList at h
  have h1 := List.of_mem_zip h
  have h2 := List.of_mem_zip h1.1
  exact ⟨h2.1, h2.2, wcells_isNum cm _ h1.2⟩

theorem obs_val_nonneg {cm : ConfusionMatrix}
    (hnn : ∀ ws, cm.weight = some ws → ∀ q ∈ ws, 0 ≤ q) :
    ∀ o ∈ obsList cm, 0 ≤ o.2.val := by
  intro o ho
  unfold obsList at ho
  have hw := (List.of_mem_zip ho).2
  cases hwt : cm.weight with
  | none =>
    rw [wcells_none hwt] at hw
    simp only [List.mem_replicate] at hw
    rw [hw.2]
    norm_num [Cell.val]
  | some ws =>
    rw [wcells_some hwt] at hw
    simp only [List.mem_map] at hw
    obtain ⟨q, hq, heq⟩ := hw
    rw [← heq]
    exact hnn ws hwt q hq

theorem mem_derivedLabels {actual predicted : List String} {l : String} :
    l ∈ derivedLabels actual predicted ↔ l ∈ actual ∨ l ∈ predicted := by
  unfold derivedLabels
  rw [(List.perm_insertionSort _ _).mem_iff, List.mem_dedup, List.mem_append]

theorem sorted_derivedLabels (actual predicted : List String) :
    List.Sorted (· ≤ ·) (derivedLabels actual predicted) :=
  List.sorted_insertionSort _ _

theorem nodup_derivedLabels (actual predicted : List String) :
    (derivedLabels actual predicted).Nodup :=
  (List.perm_insertionSort _ _).nodup_iff.mpr (List.nodup_dedup _)

theorem position_found {ls : List String} {l : String} (h : l ∈ ls) :
    ∃ k, position ls l = some k ∧ 1 ≤ k ∧ k ≤ ls.length := by
  have hs := position_isSome_iff.mpr h
  cases hk : position ls l with
  | none => rw [hk] at hs; simp at hs
  | some k => exact ⟨k, rfl, position_bounds hk⟩

theorem hpos_of_mem (cm : ConfusionMatrix)
    (hmem : ∀ o ∈ obsList cm, o.1.1 ∈ cm.labels ∧ o.1.2 ∈ cm.labels) :
    ∀ o ∈ obsList cm, ∃ r c, position cm.labels o.1.1 = some r ∧
      position cm.labels o.1.2 = some c ∧ 1 ≤ r ∧ r ≤ cm.labels.length ∧
      1 ≤ c ∧ c ≤ cm.labels.length := by
  intro o ho
  obtain ⟨ha, hp⟩ := hmem o ho
  obtain ⟨r, hr, hr1, hr2⟩ := position_found ha
  obtain ⟨c, hc, hc1, hc2⟩ := position_found hp
  exact ⟨r, c, hr, hc, hr1, hr2, hc1, hc2⟩

theorem hmem_derived (actual predicted : List String) (weight : Option (List Rat))
    (aPre pPre cor : String) :
    ∀ o ∈ obsList (mkCM actual predicted weight none aPre pPre cor),
      o.1.1 ∈ (mkCM actual predicted weight none aPre pPre cor).labels ∧
      o.1.2 ∈ (mkCM actual predicted weight none aPre pPre cor).labels := by
  intro o ho
  have h := obsList_mem ho
  constructor
  · show o.1.1 ∈ derivedLabels actual predicted
    exact mem_derivedLabels.mpr (Or.inl h.1)
  · show o.1.2 ∈ derivedLabels actual predicted
    exact mem_derivedLabels.mpr (Or.inr h.2.1)

theorem contrib_nonneg {pos : String → Option Nat} {r c : Nat}
    {obs : List ((String × String) × Cell)} (h : ∀ o ∈ obs, 0 ≤ o.2.val) :
    0 ≤ contrib pos r c obs := by
  unfold contrib
  apply List.sum_nonneg
  intro q hq
  obtain ⟨o, ho, rfl⟩ := List.mem_map.mp hq
  split
  · exact h o ho
  · exact le_refl 0

theorem obsList_map_val {cm : ConfusionMatrix}
    (hlen : cm.actual.length = cm.predicted.length)
    (hwlen : ∀ ws, cm.weight = some ws → ws.length = cm.predicted.length) :
    (obsList cm).map (fun o => o.2.val) = (wcells cm).map Cell.val := by
  unfold obsList
  have hzlen : (wcells cm).length ≤ (cm.actual.zip cm.predicted).length := by
    cases hwt : cm.weight with
    | none => simp [wcells_none hwt, List.length_zip, hlen]
    | some ws => simp [wcells_some hwt, List.length_zip, hlen, hwlen ws hwt]
  have h1 : (fun (o : (String × String) × Cell) => o.2.val) = Cell.val ∘ Prod.snd := rfl
  rw [h1, ← List.map_map, List.map_snd_zip _ _ hzlen]

theorem wcells_val_sum_none {cm : ConfusionMatrix} (h : cm.weight = none) :
    ((wcells cm).map Cell.val).sum = (cm.actual.length : Rat) := by
  rw [wcells_none h]
  simp [Cell.val]

theorem wcells_val_sum_some {cm : ConfusionMatrix} {ws : List Rat}
    (h : cm.weight = some ws) : ((wcells cm).map Cell.val).sum = ws.sum := by
  rw [wcells_some h, List.map_map]
  have hcomp : Cell.val ∘ Cell.float = id := rfl
  rw [hcomp, List.map_id]

/-! ### Generate: the tally stage and the mode dispatch -/

theorem generate_tally {cm : ConfusionMatrix}
    (hmem : ∀ o ∈ obsList cm, o.1.1 ∈ cm.labels ∧ o.1.2 ∈ cm.labels) :
    ∃ g1, tallyLoop (position cm.labels) (obsList cm) (initGrid cm) = .ok g1 ∧
      WF cm.labels.length g1 ∧ interiorNum cm.labels.length g1 ∧
      (∀ r c, 1 ≤ r → r ≤ cm.labels.length → 1 ≤ c → c ≤ cm.labels.length →
        (getCell g1 r c).val = contrib (position cm.labels) r c (obsList cm)) ∧
      (∀ r c, r = 0 ∨ c = 0 → getCell g1 r c = getCell (initGrid cm) r c) ∧
      interiorSum cm.labels.length g1 = ((obsList cm).map (fun o => o.2.val)).sum := by
  obtain ⟨g1, hrun, hWF, hNum, hcell, hhead, hsum⟩ :=
    tallyLoop_master (position cm.labels) (obsList cm)
      (hpos_of_mem cm hmem) (fun o ho => (obsList_mem ho).2.2)
      (initGrid cm) (WF_initGrid cm) (interiorNum_initGrid cm)
  refine ⟨g1, hrun, hWF, hNum, ?_, hhead, ?_⟩
  · intro r c h1 h2 h3 h4
    rw [hcell r c h1 h2 h3 h4, getCell_initGrid_interior cm h1 h2 h3 h4]
    simp [Cell.val]
  · rw [hsum, interiorSum_initGrid]
    ring

theorem generate_counts_eq {cm : ConfusionMatrix} {md : Int} {g1 : List (List Cell)}
    (h : tallyLoop (position cm.labels) (obsList cm) (initGrid cm) = .ok g1) :
    cm.generate .counts md = .ok { data := g1, max_decimals := md, separator := " " } := by
  unfold ConfusionMatrix.generate
  rw [h]

theorem generate_percentages_eq {cm : ConfusionMatrix} {md : Int}
    {g1 : List (List Cell)}
    (h : tallyLoop (position cm.labels) (obsList cm) (initGrid cm) = .ok g1) :
    cm.generate .percentages md =
      (if interiorSum cm.labels.length g1 > 0 then
        Except.ok (MatrixResult.mk
          (divideInterior cm.labels.length (interiorSum cm.labels.length g1) g1) md " ")
      else Except.ok (MatrixResult.mk g1 md " ")) := by
  unfold ConfusionMatrix.generate
  rw [h]

theorem generate_per_row_eq {cm : ConfusionMatrix} {md : Int} {g1 : List (List Cell)}
    (h : tallyLoop (position cm.labels) (obsList cm) (initGrid cm) = .ok g1) :
    cm.generate .percentages_per_row md =
      (match perRowLoop cm.labels.length (List.range cm.labels.length) g1 with
       | .error e => .error e
       | .ok g2 => .ok { data := g2, max_decimals := md, separator := " " }) := by
  unfold ConfusionMatrix.generate
  rw [h]

theorem generate_tally_error {cm : ConfusionMatrix} {md : Int} {mt : MatrixType}
    {e : String}
    (h : tallyLoop (position cm.labels) (obsList cm) (initGrid cm) = .error e) :
    cm.generate mt md = .error e := by
  unfold ConfusionMatrix.generate
  rw [h]

theorem init_none_eq (actual predicted : List String)
    (labelsOpt : Option (List String)) (aPre pPre cor : String) :
    ConfusionMatrix.init actual predicted none labelsOpt aPre pPre cor =
      (if actual.length ≠ predicted.length then
        Except.error "Actual and predicted labels differ in length"
      else Except.ok (mkCM actual predicted none labelsOpt aPre pPre cor)) := by
  unfold ConfusionMatrix.init
  by_cases h1 : actual.length ≠ predicted.length
  · rw [if_pos h1]
  · rw [if_neg h1]

theorem init_some_eq (actual predicted : List String) (w : List Rat)
    (labelsOpt : Option (List String)) (aPre pPre cor : String) :
    ConfusionMatrix.init actual predicted (some w) labelsOpt aPre pPre cor =
      (if actual.length ≠ predicted.length then
        Except.error "Actual and predicted labels differ in length"
      else if w.length ≠ predicted.length then
        Except.error "Weights and predicted labels differ in length"
      else Except.ok (mkCM actual predicted (some w) labelsOpt aPre pPre cor)) := by
  unfold ConfusionMatrix.init
  by_cases h1 : actual.length ≠ predicted.length
  · rw [if_pos h1]
  · rw [if_neg h1]

theorem generate_per_row_error {cm : ConfusionMatrix} {md : Int}
    {g1 : List (List Cell)} {e : String}
    (h : tallyLoop (position cm.labels) (obsList cm) (initGrid cm) = .ok g1)
    (h2 : perRowLoop cm.labels.length (List.range cm.labels.length) g1 = .error e) :
    cm.generate .percentages_per_row md = .error e := by
  rw [generate_per_row_eq h, h2]

theorem generate_per_row_inv {cm : ConfusionMatrix} {md : Int}
    {g1 : List (List Cell)} {res : MatrixResult}
    (h : tallyLoop (position cm.labels) (obsList cm) (initGrid cm) = .ok g1)
    (hres : cm.generate .percentages_per_row md = .ok res) :
    ∃ g2, perRowLoop cm.labels.length (List.range cm.labels.length) g1 = .ok g2 ∧
      res = MatrixResult.mk g2 md " " := by
  rw [generate_per_row_eq h] at hres
  cases hloop : perRowLoop cm.labels.length (List.range cm.labels.length) g1 with
  | error e =>
    rw [hloop] at hres
    simp at hres
  | ok g2 =>
    rw [hloop] at hres
    cases hres
    exact ⟨g2, rfl, rfl⟩

theorem interiorSum_divideInterior {L : Nat} {g : List (List Cell)} (hWF : WF L g)
    (s : Rat) : interiorSum L (divideInterior L s g) = interiorSum L g / s := by
  unfold interiorSum
  rw [Finset.sum_div]
  refine Finset.sum_congr rfl fun y hy => ?_
  rw [Finset.sum_div]
  refine Finset.sum_congr rfl fun x hx => ?_
  have hy2 := Finset.mem_range.mp hy
  have hx2 := Finset.mem_range.mp hx
  rw [getCell_divideInterior hWF s, if_pos ⟨by omega, by omega, by omega, by omega⟩]
  rfl

theorem interior_cells_zero {L : Nat} {g : List (List Cell)}
    (hnn : ∀ y x, y < L → x < L → 0 ≤ (getCell g (y + 1) (x + 1)).val)
    (hz : interiorSum L g = 0) :
    ∀ r c, 1 ≤ r → r ≤ L → 1 ≤ c → c ≤ L → (getCell g r c).val = 0 := by
  unfold interiorSum at hz
  intro r c h1 h2 h3 h4
  obtain ⟨y, rfl⟩ : ∃ y, r = y + 1 := ⟨r - 1, by omega⟩
  obtain ⟨x, rfl⟩ : ∃ x, c = x + 1 := ⟨c - 1, by omega⟩
  have hyL : y < L := by omega
  have hxL : x < L := by omega
  have houter := (Finset.sum_eq_zero_iff_of_nonneg (fun y2 hy2 =>
    Finset.sum_nonneg fun x2 hx2 =>
      hnn y2 x2 (Finset.mem_range.mp hy2) (Finset.mem_range.mp hx2))).mp hz y
    (Finset.mem_range.mpr hyL)
  exact (Finset.sum_eq_zero_iff_of_nonneg (fun x2 hx2 =>
    hnn y x2 hyL (Finset.mem_range.mp hx2))).mp houter x (Finset.mem_range.mpr hxL)

theorem WF_perRowLoop {L : Nat} :
    ∀ (ys : List Nat) (g : List (List Cell)), WF L g → (∀ y ∈ ys, y < L) →
      ∀ g', perRowLoop L ys g = .ok g' → WF L g' := by
  intro ys
  induction ys with
  | nil =>
    intro g hWF _ g' h
    cases h
    exact hWF
  | cons y ys ih =>
    intro g hWF hlt g' h
    have hyL : y < L := hlt y (List.mem_cons_self _ _)
    unfold perRowLoop at h
    by_cases h0 : rowSum L g y = 0
    · rw [if_pos h0] at h
      cases h
    · rw [if_neg h0] at h
      exact ih _ (WF_divRow hWF hyL _) (fun u hu => hlt u (List.mem_cons_of_mem _ hu)) g' h

/-! ### Tally failure on unknown labels -/

theorem tallyLoop_error_first (pos : String → Option Nat) :
    ∀ (obs : List ((String × String) × Cell)) (g : List (List Cell))
      (o : (String × String) × Cell),
      obs.find? (fun o => (pos o.1.1).isNone || (pos o.1.2).isNone) = some o →
      tallyLoop pos obs g =
        .error ("KeyError: " ++
          (if (pos o.1.1).isNone = true then o.1.1 else o.1.2)) := by
  intro obs
  induction obs with
  | nil => intro g o h; simp at h
  | cons o₀ rest ih =>
    intro g o h
    obtain ⟨⟨a, p⟩, w⟩ := o₀
    cases ha : pos a with
    | none =>
      rw [List.find?_cons_of_pos _ (by simp [ha])] at h
      cases h
      unfold tallyLoop
      rw [ha]
      simp [ha]
    | some r =>
      cases hp : pos p with
      | none =>
        rw [List.find?_cons_of_pos _ (by simp [ha, hp])] at h
        cases h
        unfold tallyLoop
        rw [ha, hp]
        simp [ha, hp]
      | some c =>
        rw [List.find?_cons_of_neg _ (by simp [ha, hp])] at h
        unfold tallyLoop
        rw [ha, hp]
        exact ih _ o h

theorem tallyLoop_ok_of_find_none (pos : String → Option Nat) :
    ∀ (obs : List ((String × String) × Cell)) (g : List (List Cell)),
      obs.find? (fun o => (pos o.1.1).isNone || (pos o.1.2).isNone) = none →
      ∃ g', tallyLoop pos obs g = .ok g' := by
  intro obs
  induction obs with
  | nil => intro g _; exact ⟨g, rfl⟩
  | cons o₀ rest ih =>
    intro g h
    obtain ⟨⟨a, p⟩, w⟩ := o₀
    have h0 := List.find?_eq_none.mp h _ (List.mem_cons_self _ _)
    have hrest : rest.find? (fun o => (pos o.1.1).isNone || (pos o.1.2).isNone) = none :=
      List.find?_eq_none.mpr fun x hx =>
        List.find?_eq_none.mp h x (List.mem_cons_of_mem _ hx)
    cases ha : pos a with
    | none => exact absurd (by simp [ha]) h0
    | some r =>
      cases hp : pos p with
      | none => exact absurd (by simp [ha, hp]) h0
      | some c =>
        obtain ⟨g', hg'⟩ := ih (tallyStep g r c w) hrest
        refine ⟨g', ?_⟩
        unfold tallyLoop
        rw [ha, hp]
        exact hg'

/-! ### Store model lemmas -/

theorem updateStrs_strs_ne (σ : PyState) (t : Nat) (vs : List String) (x : Nat)
    (h : x ≠ t) : (updateStrs σ t vs).strs x = σ.strs x := by
  simp [updateStrs, h]

theorem updateStrs_rats (σ : PyState) (t : Nat) (vs : List String) :
    (updateStrs σ t vs).rats = σ.rats := rfl

theorem updateRats_rats_ne (σ : PyState) (t : Nat) (qs : List Rat) (x : Nat)
    (h : x ≠ t) : (updateRats σ t qs).rats x = σ.rats x := by
  simp [updateRats, h]

theorem updateRats_strs (σ : PyState) (t : Nat) (qs : List Rat) :
    (updateRats σ t qs).strs = σ.strs := rfl

theorem initH_refs_fresh {σ : PyState} {aRef pRef : Nat} {wRef lRef : Option Nat}
    {refs : CMRefs} {σ2 : PyState}
    (h : initH σ aRef pRef wRef lRef = .ok (refs, σ2)) :
    σ.next ≤ refs.actualRef ∧ σ.next ≤ refs.predictedRef ∧
    σ.next ≤ refs.labelsRef ∧
    ∀ wr, refs.weightRef = some wr → σ.next ≤ wr := by
  cases wRef with
  | none =>
    simp only [initH] at h
    by_cases h1 : (σ.strs aRef).length ≠ (σ.strs pRef).length
    · rw [if_pos h1] at h
      exact Except.noConfusion h
    · rw [if_neg h1] at h
      cases h
      refine ⟨le_refl _, ?_, ?_, fun wr hwr => Option.noConfusion hwr⟩
      · show σ.next ≤ σ.next + 1
        omega
      · show σ.next ≤ σ.next + 1 + 1
        omega
  | some wr2 =>
    simp only [initH] at h
    by_cases h1 : (σ.strs aRef).length ≠ (σ.strs pRef).length
    · rw [if_pos h1] at h
      exact Except.noConfusion h
    · rw [if_neg h1] at h
      by_cases h2 : (σ.rats wr2).length ≠ (σ.strs pRef).length
      · rw [if_pos h2] at h
        exact Except.noConfusion h
      · rw [if_neg h2] at h
        cases h
        refine ⟨le_refl _, ?_, ?_, fun wr hwr => ?_⟩
        · show σ.next ≤ σ.next + 1
          omega
        · show σ.next ≤ σ.next + 1 + 1 + 1
          omega
        · have hwr2 : some (σ.next + 1 + 1) = some wr := hwr
          cases hwr2
          omega

/-! ## Claim theorems -/

/-- Claim C1: for every observation set — equal-length actual and predicted
label lists with an optional equal-length weight list — the matrix
generated with matrix type `COUNTS` has each interior cell `(r, c)` equal
to the sum of the weights of the observations whose actual label has
position `r` and whose predicted label has position `c` (each weight being
the int 1 when no weight list is given, which `contrib` reads off the
observation list built by `obsList`), and consequently the sum of all
interior cells equals the sum of all weights, or `N` when unweighted. -/
theorem C1_counts_tally (actual predicted : List String)
    (weight : Option (List Rat)) (aPre pPre cor : String) (md : Int)
    (cm : ConfusionMatrix)
    (hcm : cm = mkCM actual predicted weight none aPre pPre cor)
    (hlen : actual.length = predicted.length)
    (hwlen : ∀ ws, weight = some ws → ws.length = predicted.length) :
    ∃ res, cm.generate .counts md = .ok res ∧
      (∀ r c, 1 ≤ r → r ≤ cm.labels.length → 1 ≤ c → c ≤ cm.labels.length →
        (getCell res.data r c).val = contrib (position cm.labels) r c (obsList cm)) ∧
      (weight = none →
        interiorSum cm.labels.length res.data = (actual.length : Rat)) ∧
      (∀ ws, weight = some ws →
        interiorSum cm.labels.length res.data = ws.sum) := by
  subst hcm
  obtain ⟨g1, hrun, hWF, hNum, hcell, hhead, hsum⟩ :=
    generate_tally (hmem_derived actual predicted weight aPre pPre cor)
  refine ⟨MatrixResult.mk g1 md " ", generate_counts_eq hrun, hcell, ?_, ?_⟩
  · intro hw
    subst hw
    show interiorSum _ g1 = _
    rw [hsum,
      @obsList_map_val (mkCM actual predicted none none aPre pPre cor) hlen hwlen,
      wcells_val_sum_none rfl]
    rfl
  · intro ws hw
    subst hw
    show interiorSum _ g1 = _
    rw [hsum,
      @obsList_map_val (mkCM actual predicted (some ws) none aPre pPre cor) hlen hwlen,
      wcells_val_sum_some rfl]

/-- Witness for C1: the spec example `actual = [A, B, A, B]`,
`predicted = [A, B, B, B]`, no weights. -/
theorem C1_witness :
    ((mkCM ["A", "B", "A", "B"] ["A", "B", "B", "B"] none none "a: " "p: " "x") =
      mkCM ["A", "B", "A", "B"] ["A", "B", "B", "B"] none none "a: " "p: " "x") ∧
    (["A", "B", "A", "B"] : List String).length =
      (["A", "B", "B", "B"] : List String).length ∧
    (∀ ws : List Rat, (none : Option (List Rat)) = some ws →
      ws.length = (["A", "B", "B", "B"] : List String).length) ∧
    (∃ res, (mkCM ["A", "B", "A", "B"] ["A", "B", "B", "B"] none none
        "a: " "p: " "x").generate .counts 3 = .ok res ∧
      (∀ r c, 1 ≤ r →
        r ≤ (mkCM ["A", "B", "A", "B"] ["A", "B", "B", "B"] none none
          "a: " "p: " "x").labels.length →
        1 ≤ c →
        c ≤ (mkCM ["A", "B", "A", "B"] ["A", "B", "B", "B"] none none
          "a: " "p: " "x").labels.length →
        (getCell res.data r c).val =
          contrib (position (mkCM ["A", "B", "A", "B"] ["A", "B", "B", "B"] none none
            "a: " "p: " "x").labels) r c
            (obsList (mkCM ["A", "B", "A", "B"] ["A", "B", "B", "B"] none none
              "a: " "p: " "x"))) ∧
      ((none : Option (List Rat)) = none →
        interiorSum (mkCM ["A", "B", "A", "B"] ["A", "B", "B", "B"] none none
            "a: " "p: " "x").labels.length res.data =
          ((["A", "B", "A", "B"] : List String).length : Rat)) ∧
      (∀ ws, (none : Option (List Rat)) = some ws →
        interiorSum (mkCM ["A", "B", "A", "B"] ["A", "B", "B", "B"] none none
            "a: " "p: " "x").labels.length res.data = ws.sum)) :=
  ⟨rfl, rfl, fun ws h => Option.noConfusion h,
    C1_counts_tally ["A", "B", "A", "B"] ["A", "B", "B", "B"] none "a: " "p: " "x" 3 _
      rfl rfl (fun ws h => Option.noConfusion h)⟩

/-- Claim C2: with no explicit label list, the label index is the sorted
(ascending, by the lexicographic string order) duplicate-free set union of
the values occurring in actual and predicted, and every grid `generate`
produces has `L + 1` rows of `L + 1` cells where `L` is the size of that
union. -/
theorem C2_derived_labels (actual predicted : List String)
    (weight : Option (List Rat)) (aPre pPre cor : String) (md : Int)
    (cm : ConfusionMatrix)
    (hcm : cm = mkCM actual predicted weight none aPre pPre cor)
    (hlen : actual.length = predicted.length)
    (hwlen : ∀ ws, weight = some ws → ws.length = predicted.length) :
    cm.labels = derivedLabels actual predicted ∧
    List.Sorted (· ≤ ·) cm.labels ∧
    cm.labels.Nodup ∧
    (∀ s, s ∈ cm.labels ↔ (s ∈ actual ∨ s ∈ predicted)) ∧
    (∀ mt res, cm.generate mt md = .ok res →
      res.data.length = cm.labels.length + 1 ∧
      ∀ row ∈ res.data, row.length = cm.labels.length + 1) ∧
    (∃ res, cm.generate .counts md = .ok res) := by
  subst hcm
  obtain ⟨g1, hrun, hWF, _, _, _, _⟩ :=
    generate_tally (hmem_derived actual predicted weight aPre pPre cor)
  refine ⟨rfl, sorted_derivedLabels actual predicted,
    nodup_derivedLabels actual predicted, fun s => mem_derivedLabels, ?_,
    ⟨MatrixResult.mk g1 md " ", generate_counts_eq hrun⟩⟩
  intro mt res hres
  cases mt with
  | counts =>
    rw [generate_counts_eq hrun] at hres
    cases hres
    exact ⟨hWF.1, hWF.2⟩
  | percentages =>
    rw [generate_percentages_eq hrun] at hres
    split at hres
    · cases hres
      refine ⟨(WF_divideInterior hWF _).1, (WF_divideInterior hWF _).2⟩
    · cases hres
      exact ⟨hWF.1, hWF.2⟩
  | percentages_per_row =>
    obtain ⟨g2, hloop, rfl⟩ := generate_per_row_inv hrun hres
    have hWF2 := WF_perRowLoop _ g1 hWF (fun u hu => List.mem_range.mp hu) g2 hloop
    exact ⟨hWF2.1, hWF2.2⟩

/-- Witness for C2 at a concrete observation set with a label occurring
only on the predicted side. -/
theorem C2_witness :
    ((mkCM ["B", "A"] ["C", "A"] none none "a: " "p: " "x") =
      mkCM ["B", "A"] ["C", "A"] none none "a: " "p: " "x") ∧
    (["B", "A"] : List String).length = (["C", "A"] : List String).length ∧
    (∀ ws : List Rat, (none : Option (List Rat)) = some ws →
      ws.length = (["C", "A"] : List String).length) ∧
    ((mkCM ["B", "A"] ["C", "A"] none none "a: " "p: " "x").labels =
        derivedLabels ["B", "A"] ["C", "A"] ∧
      List.Sorted (· ≤ ·) (mkCM ["B", "A"] ["C", "A"] none none "a: " "p: " "x").labels ∧
      (mkCM ["B", "A"] ["C", "A"] none none "a: " "p: " "x").labels.Nodup ∧
      (∀ s, s ∈ (mkCM ["B", "A"] ["C", "A"] none none "a: " "p: " "x").labels ↔
        (s ∈ (["B", "A"] : List String) ∨ s ∈ (["C", "A"] : List String))) ∧
      (∀ mt res, (mkCM ["B", "A"] ["C", "A"] none none "a: " "p: " "x").generate mt 3 =
          .ok res →
        res.data.length =
          (mkCM ["B", "A"] ["C", "A"] none none "a: " "p: " "x").labels.length + 1 ∧
        ∀ row ∈ res.data, row.length =
          (mkCM ["B", "A"] ["C", "A"] none none "a: " "p: " "x").labels.length + 1) ∧
      (∃ res, (mkCM ["B", "A"] ["C", "A"] none none "a: " "p: " "x").generate .counts 3 =
        .ok res)) :=
  ⟨rfl, rfl, fun ws h => Option.noConfusion h,
    C2_derived_labels ["B", "A"] ["C", "A"] none "a: " "p: " "x" 3 _ rfl rfl
      (fun ws h => Option.noConfusion h)⟩

/-- Claim C5: construction fails exactly when the actual and predicted
lengths differ, or a weight list is supplied whose length differs from the
predicted length; it succeeds whenever the lengths agree. -/
theorem C5_init_ok_iff (actual predicted : List String) (weight : Option (List Rat))
    (labelsOpt : Option (List String)) (aPre pPre cor : String) :
    (∃ cm, ConfusionMatrix.init actual predicted weight labelsOpt aPre pPre cor =
        .ok cm) ↔
      (actual.length = predicted.length ∧
        ∀ ws, weight = some ws → ws.length = predicted.length) := by
  cases weight with
  | none =>
    rw [init_none_eq]
    by_cases h1 : actual.length = predicted.length
    · rw [if_neg (by simp [h1])]
      constructor
      · intro _
        exact ⟨h1, fun ws hws => Option.noConfusion hws⟩
      · intro _
        exact ⟨_, rfl⟩
    · rw [if_pos h1]
      constructor
      · rintro ⟨cm, hcm⟩
        simp at hcm
      · rintro ⟨h, _⟩
        exact absurd h h1
  | some w =>
    rw [init_some_eq]
    by_cases h1 : actual.length = predicted.length
    · rw [if_neg (by simp [h1])]
      by_cases h2 : w.length = predicted.length
      · rw [if_neg (by simp [h2])]
        constructor
        · intro _
          refine ⟨h1, fun ws hws => ?_⟩
          cases hws
          exact h2
        · intro _
          exact ⟨_, rfl⟩
      · rw [if_pos h2]
        constructor
        · rintro ⟨cm, hcm⟩
          simp at hcm
        · rintro ⟨_, hws⟩
          exact absurd (hws w rfl) h2
    · rw [if_pos h1]
      constructor
      · rintro ⟨cm, hcm⟩
        simp at hcm
      · rintro ⟨h, _⟩
        exact absurd h h1

/-- Claim C3: `PERCENTAGES` divides every interior cell by the grand total
of the interior cells when that total is positive (the interior then sums
to exactly 1 in this rational model), and when the grand total is 0 (all
weights being nonnegative, per the data model) it leaves every interior
cell at 0 and raises no division error; header row and header column are
unchanged in either case. -/
theorem C3_percentages_normalization (actual predicted : List String)
    (weight : Option (List Rat)) (aPre pPre cor : String) (md : Int)
    (cm : ConfusionMatrix)
    (hcm : cm = mkCM actual predicted weight none aPre pPre cor)
    (hlen : actual.length = predicted.length)
    (hwlen : ∀ ws, weight = some ws → ws.length = predicted.length)
    (hnn : ∀ ws, weight = some ws → ∀ q ∈ ws, 0 ≤ q) :
    ∃ g1 res, tallyLoop (position cm.labels) (obsList cm) (initGrid cm) = .ok g1 ∧
      cm.generate .percentages md = .ok res ∧
      (0 < interiorSum cm.labels.length g1 →
        (∀ r c, 1 ≤ r → r ≤ cm.labels.length → 1 ≤ c → c ≤ cm.labels.length →
          (getCell res.data r c).val =
            (getCell g1 r c).val / interiorSum cm.labels.length g1) ∧
        interiorSum cm.labels.length res.data = 1) ∧
      (interiorSum cm.labels.length g1 = 0 →
        res.data = g1 ∧
        ∀ r c, 1 ≤ r → r ≤ cm.labels.length → 1 ≤ c → c ≤ cm.labels.length →
          (getCell res.data r c).val = 0) ∧
      (∀ r c, r = 0 ∨ c = 0 → getCell res.data r c = getCell (initGrid cm) r c) := by
  subst hcm
  obtain ⟨g1, hrun, hWF, hNum, hcell, hhead, hsum⟩ :=
    generate_tally (hmem_derived actual predicted weight aPre pPre cor)
  have hnn2 : ∀ o ∈ obsList (mkCM actual predicted weight none aPre pPre cor),
      0 ≤ o.2.val := obs_val_nonneg (fun ws h => hnn ws h)
  have hcellnn : ∀ y x, y < (mkCM actual predicted weight none aPre pPre cor).labels.length →
      x < (mkCM actual predicted weight none aPre pPre cor).labels.length →
      0 ≤ (getCell g1 (y + 1) (x + 1)).val := by
    intro y x hy hx
    rw [hcell (y + 1) (x + 1) (by omega) (by omega) (by omega) (by omega)]
    exact contrib_nonneg hnn2
  have hs_nonneg : 0 ≤ interiorSum
      (mkCM actual predicted weight none aPre pPre cor).labels.length g1 := by
    rw [hsum]
    apply List.sum_nonneg
    intro q hq
    obtain ⟨o, ho, rfl⟩ := List.mem_map.mp hq
    exact hnn2 o ho
  by_cases hpos : interiorSum
      (mkCM actual predicted weight none aPre pPre cor).labels.length g1 > 0
  · refine ⟨g1, MatrixResult.mk (divideInterior
      (mkCM actual predicted weight none aPre pPre cor).labels.length
      (interiorSum (mkCM actual predicted weight none aPre pPre cor).labels.length g1)
      g1) md " ", hrun, ?_, ?_, ?_, ?_⟩
    · rw [generate_percentages_eq hrun, if_pos hpos]
    · intro _
      constructor
      · intro r c h1 h2 h3 h4
        show (getCell (divideInterior _ _ g1) r c).val = _
        rw [getCell_divideInterior hWF _ r c, if_pos ⟨h1, h2, h3, h4⟩]
        rfl
      · show interiorSum _ (divideInterior _ _ g1) = 1
        rw [interiorSum_divideInterior hWF]
        exact div_self (ne_of_gt hpos)
    · intro h0
      rw [h0] at hpos
      exact absurd hpos (lt_irrefl 0)
    · intro r c hrc
      show getCell (divideInterior _ _ g1) r c = _
      rw [getCell_divideInterior hWF _ r c, if_neg (by omega)]
      exact hhead r c hrc
  · have h0 : interiorSum
        (mkCM actual predicted weight none aPre pPre cor).labels.length g1 = 0 :=
      le_antisymm (not_lt.mp hpos) hs_nonneg
    refine ⟨g1, MatrixResult.mk g1 md " ", hrun, ?_, ?_, ?_, hhead⟩
    · rw [generate_percentages_eq hrun, if_neg hpos]
    · intro h
      exact absurd h hpos
    · intro _
      exact ⟨rfl, interior_cells_zero hcellnn h0⟩

/-- Witness for C3 at a concrete observation set. -/
theorem C3_witness :
    ((mkCM ["A", "B"] ["A", "A"] none none "a: " "p: " "x") =
      mkCM ["A", "B"] ["A", "A"] none none "a: " "p: " "x") ∧
    (["A", "B"] : List String).length = (["A", "A"] : List String).length ∧
    (∀ ws : List Rat, (none : Option (List Rat)) = some ws →
      ws.length = (["A", "A"] : List String).length) ∧
    (∀ ws : List Rat, (none : Option (List Rat)) = some ws → ∀ q ∈ ws, 0 ≤ q) ∧
    (∃ g1 res, tallyLoop
        (position (mkCM ["A", "B"] ["A", "A"] none none "a: " "p: " "x").labels)
        (obsList (mkCM ["A", "B"] ["A", "A"] none none "a: " "p: " "x"))
        (initGrid (mkCM ["A", "B"] ["A", "A"] none none "a: " "p: " "x")) = .ok g1 ∧
      (mkCM ["A", "B"] ["A", "A"] none none "a: " "p: " "x").generate .percentages 3 =
        .ok res ∧
      (0 < interiorSum
          (mkCM ["A", "B"] ["A", "A"] none none "a: " "p: " "x").labels.length g1 →
        (∀ r c, 1 ≤ r →
          r ≤ (mkCM ["A", "B"] ["A", "A"] none none "a: " "p: " "x").labels.length →
          1 ≤ c →
          c ≤ (mkCM ["A", "B"] ["A", "A"] none none "a: " "p: " "x").labels.length →
          (getCell res.data r c).val = (getCell g1 r c).val /
            interiorSum
              (mkCM ["A", "B"] ["A", "A"] none none "a: " "p: " "x").labels.length g1) ∧
        interiorSum
          (mkCM ["A", "B"] ["A", "A"] none none "a: " "p: " "x").labels.length
          res.data = 1) ∧
      (interiorSum
          (mkCM ["A", "B"] ["A", "A"] none none "a: " "p: " "x").labels.length g1 = 0 →
        res.data = g1 ∧
        ∀ r c, 1 ≤ r →
          r ≤ (mkCM ["A", "B"] ["A", "A"] none none "a: " "p: " "x").labels.length →
          1 ≤ c →
          c ≤ (mkCM ["A", "B"] ["A", "A"] none none "a: " "p: " "x").labels.length →
          (getCell res.data r c).val = 0) ∧
      (∀ r c, r = 0 ∨ c = 0 → getCell res.data r c =
        getCell (initGrid (mkCM ["A", "B"] ["A", "A"] none none "a: " "p: " "x")) r c)) :=
  ⟨rfl, rfl, fun ws h => Option.noConfusion h, fun ws h => Option.noConfusion h,
    C3_percentages_normalization ["A", "B"] ["A", "A"] none "a: " "p: " "x" 3 _ rfl rfl
      (fun ws h => Option.noConfusion h) (fun ws h => Option.noConfusion h)⟩

/-- Claim C4: `PERCENTAGES_PER_ROW` divides each interior cell by its own
row's total, independently per row — on success every interior cell of
row `y` equals its tallied value divided by that row's tallied total; a
row with total 0 makes `generate` raise the division-by-zero error instead
of producing a zero row; and whenever `generate` succeeds every row (all
having positive total, the weights being nonnegative) sums to exactly 1. -/
theorem C4_per_row_division (actual predicted : List String)
    (weight : Option (List Rat)) (aPre pPre cor : String) (md : Int)
    (cm : ConfusionMatrix)
    (hcm : cm = mkCM actual predicted weight none aPre pPre cor)
    (hlen : actual.length = predicted.length)
    (hwlen : ∀ ws, weight = some ws → ws.length = predicted.length)
    (hnn : ∀ ws, weight = some ws → ∀ q ∈ ws, 0 ≤ q) :
    ∃ g1, tallyLoop (position cm.labels) (obsList cm) (initGrid cm) = .ok g1 ∧
      ((∃ y, y < cm.labels.length ∧ rowSum cm.labels.length g1 y = 0) →
        cm.generate .percentages_per_row md =
          .error "ZeroDivisionError: division by zero") ∧
      (∀ res, cm.generate .percentages_per_row md = .ok res →
        (∀ y, y < cm.labels.length → 0 < rowSum cm.labels.length g1 y) ∧
        (∀ y x, y < cm.labels.length → x < cm.labels.length →
          (getCell res.data (y + 1) (x + 1)).val =
            (getCell g1 (y + 1) (x + 1)).val / rowSum cm.labels.length g1 y) ∧
        (∀ y, y < cm.labels.length → rowSum cm.labels.length res.data y = 1)) := by
  subst hcm
  obtain ⟨g1, hrun, hWF, hNum, hcell, hhead, hsum⟩ :=
    generate_tally (hmem_derived actual predicted weight aPre pPre cor)
  have hnn2 : ∀ o ∈ obsList (mkCM actual predicted weight none aPre pPre cor),
      0 ≤ o.2.val := obs_val_nonneg (fun ws h => hnn ws h)
  have hrow_nonneg : ∀ y,
      y < (mkCM actual predicted weight none aPre pPre cor).labels.length →
      0 ≤ rowSum (mkCM actual predicted weight none aPre pPre cor).labels.length g1 y := by
    intro y hy
    apply Finset.sum_nonneg
    intro x hx
    have hx2 := Finset.mem_range.mp hx
    rw [hcell (y + 1) (x + 1) (by omega) (by omega) (by omega) (by omega)]
    exact contrib_nonneg hnn2
  have hmaster := perRowLoop_master
    (List.range (mkCM actual predicted weight none aPre pPre cor).labels.length) g1
    hWF (List.nodup_range _) (fun u hu => List.mem_range.mp hu)
  refine ⟨g1, hrun, ?_, ?_⟩
  · rintro ⟨y, hyL, hy0⟩
    exact generate_per_row_error hrun
      (hmaster.1 ⟨y, List.mem_range.mpr hyL, hy0⟩)
  · intro res hres
    obtain ⟨g2, hloop, rfl⟩ := generate_per_row_inv hrun hres
    have hall : ∀ y ∈ List.range
        (mkCM actual predicted weight none aPre pPre cor).labels.length,
        rowSum (mkCM actual predicted weight none aPre pPre cor).labels.length g1 y ≠ 0 := by
      intro y hy hy0
      have herr := hmaster.1 ⟨y, hy, hy0⟩
      rw [herr] at hloop
      exact Except.noConfusion hloop
    obtain ⟨g2', hrun2, hWF2, hcells, hones, hpres⟩ := hmaster.2 hall
    rw [hrun2] at hloop
    cases hloop
    refine ⟨?_, ?_, ?_⟩
    · intro y hy
      exact lt_of_le_of_ne (hrow_nonneg y hy)
        (Ne.symm (hall y (List.mem_range.mpr hy)))
    · intro y x hy hx
      rw [show ({ data := g2, max_decimals := md, separator := " " } :
          MatrixResult).data = g2 from rfl,
        hcells y (List.mem_range.mpr hy) (x + 1) (by omega) (by omega)]
      rfl
    · intro y hy
      exact hones y (List.mem_range.mpr hy)

/-- Witness for C4 at a concrete observation set where every row has a
positive total. -/
theorem C4_witness :
    ((mkCM ["A", "B"] ["A", "B"] none none "a: " "p: " "x") =
      mkCM ["A", "B"] ["A", "B"] none none "a: " "p: " "x") ∧
    (["A", "B"] : List String).length = (["A", "B"] : List String).length ∧
    (∀ ws : List Rat, (none : Option (List Rat)) = some ws →
      ws.length = (["A", "B"] : List String).length) ∧
    (∀ ws : List Rat, (none : Option (List Rat)) = some ws → ∀ q ∈ ws, 0 ≤ q) ∧
    (∃ g1, tallyLoop
        (position (mkCM ["A", "B"] ["A", "B"] none none "a: " "p: " "x").labels)
        (obsList (mkCM ["A", "B"] ["A", "B"] none none "a: " "p: " "x"))
        (initGrid (mkCM ["A", "B"] ["A", "B"] none none "a: " "p: " "x")) = .ok g1 ∧
      ((∃ y, y < (mkCM ["A", "B"] ["A", "B"] none none "a: " "p: " "x").labels.length ∧
          rowSum (mkCM ["A", "B"] ["A", "B"] none none "a: " "p: " "x").labels.length
            g1 y = 0) →
        (mkCM ["A", "B"] ["A", "B"] none none "a: " "p: " "x").generate
          .percentages_per_row 3 = .error "ZeroDivisionError: division by zero") ∧
      (∀ res, (mkCM ["A", "B"] ["A", "B"] none none "a: " "p: " "x").generate
          .percentages_per_row 3 = .ok res →
        (∀ y, y < (mkCM ["A", "B"] ["A", "B"] none none "a: " "p: " "x").labels.length →
          0 < rowSum
            (mkCM ["A", "B"] ["A", "B"] none none "a: " "p: " "x").labels.length g1 y) ∧
        (∀ y x, y < (mkCM ["A", "B"] ["A", "B"] none none "a: " "p: " "x").labels.length →
          x < (mkCM ["A", "B"] ["A", "B"] none none "a: " "p: " "x").labels.length →
          (getCell res.data (y + 1) (x + 1)).val =
            (getCell g1 (y + 1) (x + 1)).val /
              rowSum (mkCM ["A", "B"] ["A", "B"] none none "a: " "p: " "x").labels.length
                g1 y) ∧
        (∀ y, y < (mkCM ["A", "B"] ["A", "B"] none none "a: " "p: " "x").labels.length →
          rowSum (mkCM ["A", "B"] ["A", "B"] none none "a: " "p: " "x").labels.length
            res.data y = 1))) :=
  ⟨rfl, rfl, fun ws h => Option.noConfusion h, fun ws h => Option.noConfusion h,
    C4_per_row_division ["A", "B"] ["A", "B"] none "a: " "p: " "x" 3 _ rfl rfl
      (fun ws h => Option.noConfusion h) (fun ws h => Option.noConfusion h)⟩

/-- Claim C6: tallying against an explicitly supplied label list, a label
is findable exactly when it is in that list; if some observed actual or
predicted label is absent, `generate` fails — for every matrix type — with
the `KeyError` of the first offending observation (the actual label
checked before the predicted one, as in the source); and if every observed
label is present the tally pass raises no error. -/
theorem C6_unknown_label (actual predicted : List String)
    (weight : Option (List Rat)) (ls : List String) (aPre pPre cor : String)
    (cm : ConfusionMatrix)
    (hcm : cm = mkCM actual predicted weight (some ls) aPre pPre cor)
    (_hlen : actual.length = predicted.length)
    (_hwlen : ∀ ws, weight = some ws → ws.length = predicted.length) :
    (∀ l, (position cm.labels l).isSome = true ↔ l ∈ ls) ∧
    (∀ o, (obsList cm).find? (fun o =>
        (position cm.labels o.1.1).isNone || (position cm.labels o.1.2).isNone) =
          some o →
      ∀ mt md, cm.generate mt md =
        .error ("KeyError: " ++
          (if (position cm.labels o.1.1).isNone = true then o.1.1 else o.1.2))) ∧
    ((∀ o ∈ obsList cm, o.1.1 ∈ ls ∧ o.1.2 ∈ ls) →
      ∃ g, tallyLoop (position cm.labels) (obsList cm) (initGrid cm) = .ok g) := by
  subst hcm
  refine ⟨fun l => position_isSome_iff, ?_, ?_⟩
  · intro o hfind mt md
    exact generate_tally_error (tallyLoop_error_first _ _ _ o hfind)
  · intro hall
    apply tallyLoop_ok_of_find_none
    apply List.find?_eq_none.mpr
    intro o ho
    obtain ⟨h1, h2⟩ := hall o ho
    obtain ⟨k1, hk1⟩ := Option.isSome_iff_exists.mp (position_isSome_iff.mpr h1)
    obtain ⟨k2, hk2⟩ := Option.isSome_iff_exists.mp (position_isSome_iff.mpr h2)
    have hk1b : position (mkCM actual predicted weight (some ls) aPre pPre cor).labels
        o.1.1 = some k1 := hk1
    have hk2b : position (mkCM actual predicted weight (some ls) aPre pPre cor).labels
        o.1.2 = some k2 := hk2
    simp [hk1b, hk2b]

/-- Witness for C6: an explicit label list `[A, B]` with all observed
labels present. -/
theorem C6_witness :
    ((mkCM ["A"] ["B"] none (some ["A", "B"]) "a: " "p: " "x") =
      mkCM ["A"] ["B"] none (some ["A", "B"]) "a: " "p: " "x") ∧
    (["A"] : List String).length = (["B"] : List String).length ∧
    (∀ ws : List Rat, (none : Option (List Rat)) = some ws →
      ws.length = (["B"] : List String).length) ∧
    ((∀ l, (position (mkCM ["A"] ["B"] none (some ["A", "B"])
          "a: " "p: " "x").labels l).isSome = true ↔ l ∈ ["A", "B"]) ∧
    (∀ o, (obsList (mkCM ["A"] ["B"] none (some ["A", "B"]) "a: " "p: " "x")).find?
        (fun o =>
          (position (mkCM ["A"] ["B"] none (some ["A", "B"])
            "a: " "p: " "x").labels o.1.1).isNone ||
          (position (mkCM ["A"] ["B"] none (some ["A", "B"])
            "a: " "p: " "x").labels o.1.2).isNone) = some o →
      ∀ mt md, (mkCM ["A"] ["B"] none (some ["A", "B"]) "a: " "p: " "x").generate mt md =
        .error ("KeyError: " ++
          (if (position (mkCM ["A"] ["B"] none (some ["A", "B"])
              "a: " "p: " "x").labels o.1.1).isNone = true then o.1.1 else o.1.2))) ∧
    ((∀ o ∈ obsList (mkCM ["A"] ["B"] none (some ["A", "B"]) "a: " "p: " "x"),
        o.1.1 ∈ ["A", "B"] ∧ o.1.2 ∈ ["A", "B"]) →
      ∃ g, tallyLoop
        (position (mkCM ["A"] ["B"] none (some ["A", "B"]) "a: " "p: " "x").labels)
        (obsList (mkCM ["A"] ["B"] none (some ["A", "B"]) "a: " "p: " "x"))
        (initGrid (mkCM ["A"] ["B"] none (some ["A", "B"]) "a: " "p: " "x")) = .ok g)) :=
  ⟨rfl, rfl, fun ws h => Option.noConfusion h,
    C6_unknown_label ["A"] ["B"] none ["A", "B"] "a: " "p: " "x" _ rfl rfl
      (fun ws h => Option.noConfusion h)⟩

/-- Counterexample to claim C7 as stated: the claim renders a cell as its
plain string form whenever it is not a non-integral numeric value with
`max_decimals ≥ 0`, but the code fixed-formats every float — including the
integer-valued float 1.0, which `str()` prints as `1.0` while the code
prints `1.000` at `max_decimals = 3`.  (This cell is reachable: a
`PERCENTAGES` matrix of a single observation holds the float 1.0.) -/
theorem C7_counterexample :
    ¬ (∀ (md : Int) (c : Cell), ¬(c.isNum = true ∧ c.val.den ≠ 1 ∧ md > -1) →
      cell_to_string md c = pyStr c) := by
  intro h
  have h1 := h 3 (Cell.float 1) (by decide)
  have h2 : cell_to_string 3 (Cell.float 1) = "1.000" := by decide
  have h3 : pyStr (Cell.float 1) = "1.0" := by decide
  rw [h2, h3] at h1
  exact absurd h1 (by decide)

/-- Claim C7 (amended): a cell renders as its plain string form unless it
is a float — integral-valued or not — and `max_decimals > -1`, in which
case it is fixed-formatted to exactly `max_decimals` digits;
`max_decimals = -1` (indeed any negative value) disables the formatting,
and int and string cells always render plainly. -/
theorem C7_cell_formatting (md : Int) :
    (∀ q : Rat, md > -1 → cell_to_string md (Cell.float q) = fixedFormat md.toNat q) ∧
    (∀ q : Rat, md ≤ -1 → cell_to_string md (Cell.float q) = pyFloatStr q) ∧
    (∀ n : Int, cell_to_string md (Cell.int n) = toString n) ∧
    (∀ s : String, cell_to_string md (Cell.str s) = s) := by
  refine ⟨?_, ?_, ?_, ?_⟩
  · intro q h
    unfold cell_to_string
    rw [if_pos ⟨h, rfl⟩]
    rfl
  · intro q h
    unfold cell_to_string
    rw [if_neg ?_]
    · rfl
    · rintro ⟨h2, _⟩
      omega
  · intro n
    unfold cell_to_string
    rw [if_neg ?_]
    · rfl
    · rintro ⟨_, h2⟩
      exact Bool.noConfusion h2
  · intro s
    unfold cell_to_string
    rw [if_neg ?_]
    · rfl
    · rintro ⟨_, h2⟩
      exact Bool.noConfusion h2

/-- Witness for C7 (amended) at concrete cells and decimal caps. -/
theorem C7_witness :
    ((3 : Int) > -1 ∧
      cell_to_string 3 (Cell.float (1 / 2)) = fixedFormat (3 : Int).toNat (1 / 2)) ∧
    ((-1 : Int) ≤ -1 ∧
      cell_to_string (-1) (Cell.float (1 / 2)) = pyFloatStr (1 / 2)) ∧
    cell_to_string 3 (Cell.int (-2)) = toString (-2 : Int) ∧
    cell_to_string 3 (Cell.str "p: A") = "p: A" :=
  ⟨⟨by decide, (C7_cell_formatting 3).1 (1 / 2) (by decide)⟩,
   ⟨by decide, (C7_cell_formatting (-1)).2.1 (1 / 2) (by decide)⟩,
   (C7_cell_formatting 3).2.2.1 (-2),
   (C7_cell_formatting 3).2.2.2 "p: A"⟩

/-- Claim C8 (code behaviour at the failing input): `load_csv` with a
configured weight column returns the weight column verbatim as strings —
`"0.5"`, not the float 0.5 the interface demands — both with and without a
header row, and returns `none` for the weights when no weight column is
configured. -/
theorem C8_load_csv_weight_strings :
    load_csv [["A", "B", "0.5"]] 1 2 (some 3) false =
      (["A"], ["B"], some ["0.5"]) ∧
    load_csv [["act", "pred", "w"], ["A", "B", "0.5"]] 1 2 (some 3) true =
      (["A"], ["B"], some ["0.5"]) ∧
    load_csv [["A", "B", "0.5"]] 1 2 none false = (["A"], ["B"], none) :=
  ⟨rfl, rfl, rfl⟩

/-- Claim C9: `generate` reads but never writes the builder, so the
post-state equals the receiver and a second call with the same arguments
returns an identical result (same grid, same `max_decimals`). -/
theorem C9_generate_idempotent (cm : ConfusionMatrix) (mt : MatrixType) (md : Int)
    (_hlen : cm.actual.length = cm.predicted.length)
    (_hwlen : ∀ ws, cm.weight = some ws → ws.length = cm.predicted.length) :
    (generateS cm mt md).2 = cm ∧
    (generateS ((generateS cm mt md).2) mt md).1 = (generateS cm mt md).1 ∧
    (∀ r1 r2, (generateS cm mt md).1 = .ok r1 →
      (generateS ((generateS cm mt md).2) mt md).1 = .ok r2 →
      r1.data = r2.data ∧ r1.max_decimals = r2.max_decimals) := by
  refine ⟨rfl, rfl, ?_⟩
  intro r1 r2 h1 h2
  have h3 : (generateS cm mt md).1 = .ok r2 := h2
  rw [h1] at h3
  cases h3
  exact ⟨rfl, rfl⟩

/-- Witness for C9 at a concrete builder. -/
theorem C9_witness :
    ((mkCM ["A"] ["A"] none none "a: " "p: " "x").actual.length =
      (mkCM ["A"] ["A"] none none "a: " "p: " "x").predicted.length) ∧
    (∀ ws : List Rat, (mkCM ["A"] ["A"] none none "a: " "p: " "x").weight = some ws →
      ws.length = (mkCM ["A"] ["A"] none none "a: " "p: " "x").predicted.length) ∧
    ((generateS (mkCM ["A"] ["A"] none none "a: " "p: " "x") .counts 3).2 =
      mkCM ["A"] ["A"] none none "a: " "p: " "x" ∧
    (generateS ((generateS (mkCM ["A"] ["A"] none none "a: " "p: " "x") .counts 3).2)
        .counts 3).1 =
      (generateS (mkCM ["A"] ["A"] none none "a: " "p: " "x") .counts 3).1 ∧
    (∀ r1 r2,
      (generateS (mkCM ["A"] ["A"] none none "a: " "p: " "x") .counts 3).1 = .ok r1 →
      (generateS ((generateS (mkCM ["A"] ["A"] none none "a: " "p: " "x") .counts 3).2)
        .counts 3).1 = .ok r2 →
      r1.data = r2.data ∧ r1.max_decimals = r2.max_decimals)) :=
  ⟨rfl, fun ws h => Option.noConfusion h,
    C9_generate_idempotent (mkCM ["A"] ["A"] none none "a: " "p: " "x") .counts 3 rfl
      (fun ws h => Option.noConfusion h)⟩

/-- Claim C10: the constructor stores `[:]` copies at freshly allocated
addresses, so mutating any caller-visible list (any address below the
allocation frontier at construction time) afterwards leaves the builder's
stored `actual`, `predicted`, `labels` and `weight` sequences unchanged,
and with them the result of every later `generate` call. -/
theorem C10_constructor_copies (σ : PyState) (aRef pRef : Nat)
    (wRef : Option Nat) (lRef : Option Nat) (t : Nat) (vs : List String)
    (qs : List Rat) (ht : t < σ.next) :
    ∀ refs σ2, initH σ aRef pRef wRef lRef = .ok (refs, σ2) →
      (updateStrs σ2 t vs).strs refs.actualRef = σ2.strs refs.actualRef ∧
      (updateStrs σ2 t vs).strs refs.predictedRef = σ2.strs refs.predictedRef ∧
      (updateStrs σ2 t vs).strs refs.labelsRef = σ2.strs refs.labelsRef ∧
      (∀ wr, refs.weightRef = some wr →
        (updateRats σ2 t qs).rats wr = σ2.rats wr) ∧
      (∀ aP pP cor mt md,
        (derefCM (updateRats (updateStrs σ2 t vs) t qs) refs aP pP cor).generate mt md =
          (derefCM σ2 refs aP pP cor).generate mt md) := by
  intro refs σ2 hinit
  obtain ⟨ha, hp, hl, hw⟩ := initH_refs_fresh hinit
  refine ⟨updateStrs_strs_ne _ _ _ _ (by omega), updateStrs_strs_ne _ _ _ _ (by omega),
    updateStrs_strs_ne _ _ _ _ (by omega), ?_, ?_⟩
  · intro wr hwr
    have := hw wr hwr
    exact updateRats_rats_ne _ _ _ _ (by omega)
  · intro aP pP cor mt md
    have heq : derefCM (updateRats (updateStrs σ2 t vs) t qs) refs aP pP cor =
        derefCM σ2 refs aP pP cor := by
      unfold derefCM
      congr 1
      · rw [updateRats_strs, updateStrs_strs_ne _ _ _ _ (by omega)]
      · rw [updateRats_strs, updateStrs_strs_ne _ _ _ _ (by omega)]
      · cases hwr : refs.weightRef with
        | none => rfl
        | some wr =>
          have hfresh := hw wr hwr
          show some ((updateRats (updateStrs σ2 t vs) t qs).rats wr) =
            some (σ2.rats wr)
          rw [updateRats_rats_ne _ _ _ _ (by omega), updateStrs_rats]
      · rw [updateRats_strs, updateStrs_strs_ne _ _ _ _ (by omega)]
    rw [heq]

/-- Witness for C10: a concrete store with the caller's lists at addresses
0, 1 and 2, mutated at address 0 after construction. -/
theorem C10_witness :
    (0 : Nat) <
      (PyState.mk
        (fun r => if r = 0 then ["A"] else if r = 1 then ["A"] else
          if r = 2 then ["A"] else []) (fun _ => []) 3).next ∧
    (∀ refs σ2, initH
        (PyState.mk
          (fun r => if r = 0 then ["A"] else if r = 1 then ["A"] else
            if r = 2 then ["A"] else []) (fun _ => []) 3) 0 1 none (some 2) =
          .ok (refs, σ2) →
      (updateStrs σ2 0 ["B"]).strs refs.actualRef = σ2.strs refs.actualRef ∧
      (updateStrs σ2 0 ["B"]).strs refs.predictedRef = σ2.strs refs.predictedRef ∧
      (updateStrs σ2 0 ["B"]).strs refs.labelsRef = σ2.strs refs.labelsRef ∧
      (∀ wr, refs.weightRef = some wr →
        (updateRats σ2 0 [(1 : Rat)]).rats wr = σ2.rats wr) ∧
      (∀ aP pP cor mt md,
        (derefCM (updateRats (updateStrs σ2 0 ["B"]) 0 [(1 : Rat)]) refs
            aP pP cor).generate mt md =
          (derefCM σ2 refs aP pP cor).generate mt md)) ∧
    (initH
      (PyState.mk
        (fun r => if r = 0 then ["A"] else if r = 1 then ["A"] else
          if r = 2 then ["A"] else []) (fun _ => []) 3) 0 1 none
        (some 2)).toOption.isSome = true :=
  ⟨by decide,
    C10_constructor_copies
      (PyState.mk
        (fun r => if r = 0 then ["A"] else if r = 1 then ["A"] else
          if r = 2 then ["A"] else []) (fun _ => []) 3) 0 1 none (some 2) 0 ["B"]
      [(1 : Rat)] (by decide),
    rfl⟩

end SCM
